import Mathlib

/-!
Verification of the path.jerryio geometric path engine and command/undo-redo
core against its specification.

The development shallowly embeds the TypeScript sources:

* `src/src/math/Path.tsx` — the `Vertex`/`Control`/`EndPointControl` point
  hierarchy, `Spline` (Bezier curve evaluation and knot resampling) and
  `Path` (two-pass whole-path knot generation with speed shaping);
* the command engine source (`CommandHistory`, `UpdateInstancesProperties`,
  `DragControls`, ...).

Modelling conventions:

* JavaScript numbers are modelled as exact rationals (`ℚ`).  Wherever the
  source divides, the JS result for a zero divisor (`Infinity`/`NaN`) differs
  from Lean's `q / 0 = 0`; every theorem below that touches such a division
  carries a hypothesis keeping the divisor nonzero (or proving the branch
  unreachable), so the model and the JS semantics agree on the proven domain.
* `Math.sqrt` is irrational on most inputs, so it is passed as an explicit
  function parameter `sq : ℚ → ℚ` assumed to satisfy the sign laws of the
  real square root (`SqrtLike`).  No theorem below depends on more than
  those laws; concrete instantiations use a simple `SqrtLike` function.
* `number.toFixed(p)` followed by `parseFloat` is modelled as rounding to
  the nearest multiple of `10⁻ᵖ` (ties rounding up, matching `Int.round`).
* The mutable object graph is modelled by explicit state passing: worlds are
  functions from object identifiers (`ℕ`) to object states, and reference
  identity is identifier equality.
-/

namespace PathCore

/-! ### Fixed-precision rounding: `v.toFixed(p)` followed by `parseFloat` -/

/-- `fixP p q` models `parseFloat(q.toFixed(p))`: round to the nearest
multiple of `10⁻ᵖ`. -/
def fixP (p : ℕ) (q : ℚ) : ℚ := (round (q * 10 ^ p) : ℚ) / 10 ^ p

/-- `onGrid p q` says `q` is representable at `p` decimal places. -/
def onGrid (p : ℕ) (q : ℚ) : Prop := ∃ m : ℤ, q = (m : ℚ) / 10 ^ p

theorem onGrid_fixP (p : ℕ) (q : ℚ) : onGrid p (fixP p q) :=
  ⟨round (q * 10 ^ p), rfl⟩

theorem fixP_eq_self {p : ℕ} {q : ℚ} (h : onGrid p q) : fixP p q = q := by
  obtain ⟨m, rfl⟩ := h
  have hp : ((10 : ℚ) ^ p) ≠ 0 := by positivity
  unfold fixP
  rw [div_mul_cancel₀ _ hp, round_intCast]

theorem onGrid_add {p : ℕ} {a b : ℚ} (ha : onGrid p a) (hb : onGrid p b) :
    onGrid p (a + b) := by
  obtain ⟨m, rfl⟩ := ha
  obtain ⟨n, rfl⟩ := hb
  exact ⟨m + n, by push_cast; ring⟩

theorem onGrid_sub {p : ℕ} {a b : ℚ} (ha : onGrid p a) (hb : onGrid p b) :
    onGrid p (a - b) := by
  obtain ⟨m, rfl⟩ := ha
  obtain ⟨n, rfl⟩ := hb
  exact ⟨m - n, by push_cast; ring⟩

/-- A 2-decimal value is also a 3-decimal value. -/
theorem onGrid_mono {a : ℚ} (h : onGrid 2 a) : onGrid 3 a := by
  obtain ⟨m, rfl⟩ := h
  exact ⟨10 * m, by push_cast; ring⟩

/-! ### JavaScript `%` on rationals (remainder with the dividend's sign) -/

/-- Truncation toward zero, as JavaScript division-based remainders use. -/
def jsTrunc (q : ℚ) : ℤ := if 0 ≤ q then ⌊q⌋ else ⌈q⌉

/-- `jsMod a b` models the JavaScript remainder `a % b`. -/
def jsMod (a b : ℚ) : ℚ := a - b * (jsTrunc (a / b) : ℚ)

/-- `norm360 h` is the heading normalisation in `EndPointControl.fixPrecision`:
`h %= 360; if (h < 0) h += 360`. -/
def norm360 (h : ℚ) : ℚ :=
  let h1 := jsMod h 360
  if h1 < 0 then h1 + 360 else h1

theorem jsMod360_bounds (h : ℚ) : -360 < jsMod h 360 ∧ jsMod h 360 < 360 := by
  unfold jsMod jsTrunc
  by_cases hs : 0 ≤ h / 360
  · have h1 : (⌊h / 360⌋ : ℚ) ≤ h / 360 := Int.floor_le _
    have h2 : h / 360 < (⌊h / 360⌋ : ℚ) + 1 := Int.lt_floor_add_one _
    simp only [if_pos hs]
    constructor <;> nlinarith
  · have h1 : h / 360 ≤ (⌈h / 360⌉ : ℚ) := Int.le_ceil _
    have h2 : (⌈h / 360⌉ : ℚ) - 1 < h / 360 := by
      have := Int.ceil_lt_add_one (h / 360)
      linarith
    simp only [if_neg hs]
    constructor <;> nlinarith

theorem norm360_bounds (h : ℚ) : 0 ≤ norm360 h ∧ norm360 h < 360 := by
  obtain ⟨h1, h2⟩ := jsMod360_bounds h
  unfold norm360
  by_cases hneg : jsMod h 360 < 0
  · simp only [if_pos hneg]
    constructor <;> linarith
  · simp only [if_neg hneg]
    constructor <;> linarith

/-! ### The point hierarchy

The source has `Vertex` (plain 2-D point), `Control extends Vertex` (adds
`uid`/`lock`/`visible`) and `EndPointControl extends Control` (adds a
`heading`; overrides `fixPrecision` to use 2 decimal places and to normalise
the heading).  For the arithmetic operations only the coordinates and the
dynamically-dispatched `fixPrecision` matter, so a point is modelled as
coordinates plus an optional heading; `heading = some _` marks an
`EndPointControl` (which rounds to 2 decimals), `heading = none` any of the
plain kinds (which round to 3 decimals). -/

structure Vertex where
  x : ℚ
  y : ℚ
  heading : Option ℚ

/-- `fixPrecision()` with the default precision of the receiver's class:
`Vertex.fixPrecision(p = 3)` for the plain kinds, and
`EndPointControl.fixPrecision(p = 2)` — which passes `p = 2` to
`super.fixPrecision` for the coordinates and then normalises the heading to
`[0, 360)` before rounding it to 2 decimals. -/
def Vertex.fixPrecision (v : Vertex) : Vertex :=
  match v.heading with
  | none => ⟨fixP 3 v.x, fixP 3 v.y, none⟩
  | some h => ⟨fixP 2 v.x, fixP 2 v.y, some (fixP 2 (norm360 h))⟩

/-- `this.add(vector)`: clone the argument, add `this`, fix precision. -/
def Vertex.add (this vector : Vertex) : Vertex :=
  Vertex.fixPrecision ⟨vector.x + this.x, vector.y + this.y, vector.heading⟩

/-- `this.subtract(vector)`: clone the argument, write `this - vector` into
it, fix precision. -/
def Vertex.subtract (this vector : Vertex) : Vertex :=
  Vertex.fixPrecision ⟨this.x - vector.x, this.y - vector.y, vector.heading⟩

/-- `this.multiply(vector)`: component-wise product, fix precision. -/
def Vertex.multiply (this vector : Vertex) : Vertex :=
  Vertex.fixPrecision ⟨this.x * vector.x, this.y * vector.y, vector.heading⟩

/-- `this.divide(vector)`: component-wise quotient `this / vector`, fix
precision.  A zero component in `vector` yields `Infinity` in JS but `0`
here; theorems about `divide` therefore assume nonzero components. -/
def Vertex.divide (this vector : Vertex) : Vertex :=
  Vertex.fixPrecision ⟨this.x / vector.x, this.y / vector.y, vector.heading⟩

/-- `this.mirror(other)`: reflection of `other` through `this`. -/
def Vertex.mirror (this other : Vertex) : Vertex :=
  Vertex.fixPrecision ⟨2 * this.x - other.x, 2 * this.y - other.y, other.heading⟩

/-- `this.interpolate(other, d)`: move distance `d` from `this` toward
`other` using the angle between the points.  `Math.atan2`, `Math.cos` and
`Math.sin` are irrational and are taken as function parameters. -/
def Vertex.interpolate (atan2 : ℚ → ℚ → ℚ) (cos sin : ℚ → ℚ)
    (this other : Vertex) (d : ℚ) : Vertex :=
  let angle := atan2 (other.y - this.y) (other.x - this.x)
  Vertex.fixPrecision ⟨this.x + d * cos angle, this.y + d * sin angle, other.heading⟩

/-- `this.setXY(other)`: overwrite the receiver's coordinates and re-apply
the receiver's own `fixPrecision`. -/
def Vertex.setXY (this other : Vertex) : Vertex :=
  Vertex.fixPrecision ⟨other.x, other.y, this.heading⟩

/-- The precision `fixPrecision` actually applies to the coordinates:
3 decimals for the plain kinds, 2 for `EndPointControl`. -/
def precOf (v : Vertex) : ℕ :=
  match v.heading with
  | none => 3
  | some _ => 2

/-- The heading stored by `fixPrecision`. -/
def headOut (v : Vertex) : Option ℚ :=
  v.heading.map (fun h => fixP 2 (norm360 h))

theorem fixPrecision_eq (v : Vertex) :
    v.fixPrecision = ⟨fixP (precOf v) v.x, fixP (precOf v) v.y, headOut v⟩ := by
  cases v with
  | mk x y h => cases h <;> rfl

theorem fixP2_norm360_mem (h : ℚ) :
    0 ≤ fixP 2 (norm360 h) ∧ fixP 2 (norm360 h) ≤ 360 := by
  obtain ⟨h0, h1⟩ := norm360_bounds h
  unfold fixP
  rw [round_eq]
  constructor
  · apply div_nonneg _ (by norm_num)
    have : (0 : ℤ) ≤ ⌊norm360 h * 10 ^ 2 + 1 / 2⌋ := by
      apply Int.floor_nonneg.mpr
      nlinarith
    exact_mod_cast this
  · rw [div_le_iff₀ (by norm_num : (0:ℚ) < 10 ^ 2)]
    have hle : ⌊norm360 h * 10 ^ 2 + 1 / 2⌋ ≤ ⌊(36000 : ℚ) + 1 / 2⌋ := by
      apply Int.floor_le_floor
      nlinarith
    have h36 : ⌊(36000 : ℚ) + 1 / 2⌋ = 36000 := by norm_num
    rw [h36] at hle
    calc (⌊norm360 h * 10 ^ 2 + 1 / 2⌋ : ℚ) ≤ (36000 : ℚ) := by exact_mod_cast hle
    _ = 360 * 10 ^ 2 := by norm_num

/-- C8 counterexample: the claim predicts that every operation rounds both
coordinates to 3 decimal places for every input point including directional
end-point controls.  Adding the zero vertex to an `EndPointControl` at
`x = 0.123` yields `x = 0.12` (2-decimal rounding by the overridden
`fixPrecision(p = 2)`), not the claimed 3-decimal rounding `0.123`; and its
heading `359.999` is stored as `360.00`, outside the claimed `[0, 360)`. -/
theorem vertex_ops_round3_counterexample :
    (Vertex.add ⟨0, 0, none⟩ ⟨123/1000, 0, some (359999/1000)⟩).x = 3/25 ∧
    fixP 3 ((123 : ℚ)/1000 + 0) = 123/1000 ∧
    ((3 : ℚ)/25) ≠ 123/1000 ∧
    (Vertex.add ⟨0, 0, none⟩ ⟨123/1000, 0, some (359999/1000)⟩).heading = some 360 := by
  refine ⟨?_, ?_, by norm_num, ?_⟩
  · show fixP 2 ((123 : ℚ)/1000 + 0) = 3/25
    norm_num [fixP, round_eq]
  · norm_num [fixP, round_eq]
  · show some (fixP 2 (norm360 (359999/1000))) = some 360
    have h1 : norm360 (359999/1000) = 359999/1000 := by
      have ht : jsTrunc ((359999 : ℚ)/1000 / 360) = 0 := by
        unfold jsTrunc
        rw [if_pos (by norm_num), Int.floor_eq_zero_iff, Set.mem_Ico]
        constructor <;> norm_num
      unfold norm360 jsMod
      rw [ht]
      norm_num
    rw [h1]
    norm_num [fixP, round_eq]

/-- C8 amended: every operation producing a new point and the in-place
`setXY` apply the *argument's* (for `setXY`: the receiver's) dynamically
dispatched `fixPrecision` to the raw arithmetic result before returning —
3 decimal places for plain vertices and controls, but 2 decimal places for
directional end-point controls; for directional points the heading is
normalised modulo 360 and rounded to 2 decimals, landing in `[0, 360]`
(rounding a heading just below 360 can yield exactly 360).  Both result
coordinates are exact multiples of `10⁻ᵖ` at the applied precision `p`. -/
theorem vertex_ops_fixed_precision_amended :
    ∀ (a b : Vertex) (at2 : ℚ → ℚ → ℚ) (co si : ℚ → ℚ) (d : ℚ),
    (Vertex.add a b = ⟨fixP (precOf b) (b.x + a.x), fixP (precOf b) (b.y + a.y), headOut b⟩) ∧
    (Vertex.subtract a b = ⟨fixP (precOf b) (a.x - b.x), fixP (precOf b) (a.y - b.y), headOut b⟩) ∧
    (Vertex.multiply a b = ⟨fixP (precOf b) (a.x * b.x), fixP (precOf b) (a.y * b.y), headOut b⟩) ∧
    (Vertex.divide a b = ⟨fixP (precOf b) (a.x / b.x), fixP (precOf b) (a.y / b.y), headOut b⟩) ∧
    (Vertex.mirror a b = ⟨fixP (precOf b) (2 * a.x - b.x), fixP (precOf b) (2 * a.y - b.y), headOut b⟩) ∧
    (Vertex.interpolate at2 co si a b d =
      ⟨fixP (precOf b) (a.x + d * co (at2 (b.y - a.y) (b.x - a.x))),
       fixP (precOf b) (a.y + d * si (at2 (b.y - a.y) (b.x - a.x))), headOut b⟩) ∧
    (Vertex.setXY a b = ⟨fixP (precOf a) b.x, fixP (precOf a) b.y, headOut a⟩) ∧
    (onGrid (precOf b) (Vertex.add a b).x ∧ onGrid (precOf b) (Vertex.add a b).y) ∧
    (∀ h hv, headOut b = some hv → b.heading = some h →
      0 ≤ hv ∧ hv ≤ 360) := by
  intro a b at2 co si d
  have hchar : ∀ x y : ℚ,
      Vertex.fixPrecision ⟨x, y, b.heading⟩ =
        ⟨fixP (precOf b) x, fixP (precOf b) y, headOut b⟩ := by
    intro x y
    cases hb : b.heading <;>
      simp [Vertex.fixPrecision, precOf, headOut, hb]
  have hchara : ∀ x y : ℚ,
      Vertex.fixPrecision ⟨x, y, a.heading⟩ =
        ⟨fixP (precOf a) x, fixP (precOf a) y, headOut a⟩ := by
    intro x y
    cases ha : a.heading <;>
      simp [Vertex.fixPrecision, precOf, headOut, ha]
  refine ⟨hchar _ _, hchar _ _, hchar _ _, hchar _ _, hchar _ _, hchar _ _, hchara _ _, ?_, ?_⟩
  · rw [Vertex.add, hchar]
    exact ⟨onGrid_fixP _ _, onGrid_fixP _ _⟩
  · intro h hv hhv hb
    rw [headOut, hb, Option.map_some'] at hhv
    obtain rfl : fixP 2 (norm360 h) = hv := Option.some.inj hhv
    exact fixP2_norm360_mem h

/-- Witness for the amended C8 theorem: instantiating it at concrete points
evaluates the characterisation and the heading bound. -/
theorem vertex_ops_fixed_precision_amended_witness :
    (0 : ℚ) ≤ 30 ∧ (30 : ℚ) ≤ 360 := by
  have happ := vertex_ops_fixed_precision_amended ⟨0, 0, none⟩ ⟨0, 0, some 30⟩
    (fun _ _ => 0) (fun _ => 0) (fun _ => 0) 0
  have hhead : headOut ⟨0, 0, some 30⟩ = some 30 := by
    have ht : jsTrunc ((30 : ℚ) / 360) = 0 := by
      unfold jsTrunc
      rw [if_pos (by norm_num), Int.floor_eq_zero_iff, Set.mem_Ico]
      constructor <;> norm_num
    have hn : norm360 30 = 30 := by
      unfold norm360 jsMod
      rw [ht]
      norm_num
    simp [headOut, hn, fixP, round_eq]
    norm_num
  exact happ.2.2.2.2.2.2.2.2 30 30 hhead rfl

/-! ### Identifier generation (claim C9)

The id-generation collaborator (`makeId` from `app/Util`) produces a fresh
random identifier string.  Freshness is modelled by a supply counter that is
threaded explicitly: `makeId` returns the next fresh identifier and the
advanced supply.  Constructors of `Control` / `EndPointControl` call
`makeId(10)` (source: `this.uid = makeId(10)` in the `Control` constructor),
and `clone()` builds a brand-new instance through the constructor. -/

def makeId (_len : ℕ) (supply : ℕ) : ℕ × ℕ := (supply, supply + 1)

/-- A `Control` / `EndPointControl` instance with its identity — `heading =
some _` marks an `EndPointControl`. -/
structure ControlObj where
  x : ℚ
  y : ℚ
  heading : Option ℚ
  uid : ℕ
  lock : Bool
  visible : Bool

/-- `new Control(x, y)`: assigns `uid = makeId(10)`, `lock = false`,
`visible = true`. -/
def Control.new (x y : ℚ) (s : ℕ) : ControlObj × ℕ :=
  let r := makeId 10 s
  (⟨x, y, none, r.1, false, true⟩, r.2)

/-- `new EndPointControl(x, y, heading)`: calls the `Control` constructor. -/
def EndPointControl.new (x y heading : ℚ) (s : ℕ) : ControlObj × ℕ :=
  let r := makeId 10 s
  (⟨x, y, some heading, r.1, false, true⟩, r.2)

/-- `Control.clone(): return new Control(this.x, this.y)`. -/
def Control.clone (c : ControlObj) (s : ℕ) : ControlObj × ℕ :=
  Control.new c.x c.y s

/-- `EndPointControl.clone(): return new EndPointControl(this.x, this.y,
this.heading)`. -/
def EndPointControl.clone (c : ControlObj) (s : ℕ) : ControlObj × ℕ :=
  EndPointControl.new c.x c.y (c.heading.getD 0) s

/-- C9 counterexample: the claim states `c.clone()` never invokes the id
generator with a fresh identifier for the clone.  But `clone` constructs the
copy through `new Control(...)`, whose constructor runs `makeId(10)`: cloning
a freshly built control consumes a fresh identifier (the supply advances) and
the clone's `uid` differs from the original's. -/
theorem control_clone_fresh_id_counterexample :
    (Control.clone (Control.new 1 2 0).1 (Control.new 1 2 0).2).2 ≠ (Control.new 1 2 0).2 ∧
    (Control.clone (Control.new 1 2 0).1 (Control.new 1 2 0).2).1.uid ≠ (Control.new 1 2 0).1.uid := by
  constructor <;> simp [Control.clone, Control.new, makeId]

/-- C9 amended: the id generator is invoked exactly once by every
construction of a `Control` / `EndPointControl` — and therefore also by
every `clone`, which builds its copy through the constructor: the clone
copies the coordinates (and heading) but receives the next fresh identifier
and default `lock`/`visible` flags, and the supply advances by one. -/
theorem control_construction_consumes_one_id_amended :
    ∀ (x y h : ℚ) (c : ControlObj) (s : ℕ),
    Control.new x y s = (⟨x, y, none, s, false, true⟩, s + 1) ∧
    EndPointControl.new x y h s = (⟨x, y, some h, s, false, true⟩, s + 1) ∧
    Control.clone c s = (⟨c.x, c.y, none, s, false, true⟩, s + 1) ∧
    EndPointControl.clone c s = (⟨c.x, c.y, some (c.heading.getD 0), s, false, true⟩, s + 1) := by
  intro x y h c s
  exact ⟨rfl, rfl, rfl, rfl⟩

/-! ### The command variants (claim C1)

`UpdateInstancesProperties<TTarget>` batch-updates properties of a list of
target objects.  Targets are modelled as identifiers into a world
`ObjWorld`; a target's state is a total map from property keys to values
(`PObj`), and a `Partial<TTarget>` is a partial map (`PMap`).  Object spread
`{...a, ...b}` is `pmSpread a b` (keys of `b` win). -/

abbrev PObj : Type := ℕ → ℤ

abbrev PMap : Type := ℕ → Option ℤ

def pmEmpty : PMap := fun _ => none

def pmSpread (a b : PMap) : PMap := fun k => (b k).orElse (fun _ => a k)

/-- Pointwise world update (mutation of the object named `i`). -/
def updateFn {α : Type} (w : ℕ → α) (i : ℕ) (v : α) : ℕ → α :=
  fun j => if j = i then v else w j

/-- `updatePropertiesForTarget(target, values)`: for every key defined by
`values`, record the target's previous value and overwrite it.  Returns the
updated target and the previous-values map (defined exactly on the keys of
`values`). -/
def updatePropertiesForTarget (target : PObj) (values : PMap) : PObj × PMap :=
  (fun k => (values k).getD (target k), fun k => (values k).map (fun _ => target k))

abbrev ObjWorld : Type := ℕ → PObj

/-- `UpdateInstancesProperties.execute()`: `previousValue = []`, then for
each target push `updatePropertiesForTarget(target, newValues)`. -/
def UpdateInstancesProperties.execute (targets : List ℕ) (newValues : PMap)
    (w : ObjWorld) : ObjWorld × List PMap :=
  targets.foldl (fun acc tid =>
    let r := updatePropertiesForTarget (acc.1 tid) newValues
    (updateFn acc.1 tid r.1, acc.2 ++ [r.2])) (w, [])

/-- `UpdateInstancesProperties.undo()`: for each index `i`, apply
`updatePropertiesForTarget(targets[i], previousValue[i])` (the returned
previous values are discarded).  The source's index loop is written as
simultaneous recursion on both lists; a missing `previousValue[i]`
(`undefined` in JS) iterates over no keys, i.e. behaves as `pmEmpty`. -/
def UpdateInstancesProperties.undo (targets : List ℕ) (previousValue : List PMap)
    (w : ObjWorld) : ObjWorld :=
  match targets, previousValue with
  | [], _ => w
  | t :: ts, [] =>
      UpdateInstancesProperties.undo ts []
        (updateFn w t (updatePropertiesForTarget (w t) pmEmpty).1)
  | t :: ts, p :: ps =>
      UpdateInstancesProperties.undo ts ps
        (updateFn w t (updatePropertiesForTarget (w t) p).1)

/-- `UpdateInstancesProperties.redo(): this.execute()`. -/
def UpdateInstancesProperties.redo (targets : List ℕ) (newValues : PMap)
    (w : ObjWorld) : ObjWorld × List PMap :=
  UpdateInstancesProperties.execute targets newValues w

/-- A `Vector` (plain point value, 3-decimal precision) as used for the
`from`/`to` fields of `DragControls`. -/
structure Vector where
  x : ℚ
  y : ℚ

abbrev CtrlWorld : Type := ℕ → Vertex

/-- One follower step of `DragControls.execute`:
`cp.setXY(this.to.add(cp.subtract(this.from)))`.  `cp.subtract(from)` clones
the plain `Vector` argument (3-decimal rounding), `to.add(...)` likewise,
and `setXY` re-applies the control's own `fixPrecision`. -/
def DragControls.moveStep (fromV toV : Vector) (w : CtrlWorld) (cid : ℕ) : CtrlWorld :=
  let cp := w cid
  updateFn w cid
    (Vertex.setXY cp (Vertex.add ⟨toV.x, toV.y, none⟩ (Vertex.subtract cp ⟨fromV.x, fromV.y, none⟩)))

/-- `DragControls.execute()`: move every follower by the drag vector, then
`this.main.setXY(this.to)`. -/
def DragControls.execute (main : ℕ) (fromV toV : Vector) (followers : List ℕ)
    (w : CtrlWorld) : CtrlWorld :=
  let w1 := followers.foldl (DragControls.moveStep fromV toV) w
  updateFn w1 main (Vertex.setXY (w1 main) ⟨toV.x, toV.y, none⟩)

/-- `DragControls.undo()`: the same with `from` and `to` exchanged. -/
def DragControls.undo (main : ℕ) (fromV toV : Vector) (followers : List ℕ)
    (w : CtrlWorld) : CtrlWorld :=
  let w1 := followers.foldl (DragControls.moveStep toV fromV) w
  updateFn w1 main (Vertex.setXY (w1 main) ⟨fromV.x, fromV.y, none⟩)

/-- `DragControls.redo(): this.execute()`. -/
def DragControls.redo (main : ℕ) (fromV toV : Vector) (followers : List ℕ)
    (w : CtrlWorld) : CtrlWorld :=
  DragControls.execute main fromV toV followers w

/-- A point that is a fixed point of its own `fixPrecision` — i.e. its
fields already carry the fixed-precision rounding. -/
def wellFormedV (v : Vertex) : Prop := v.fixPrecision = v

theorem fixP_zero (p : ℕ) : fixP p 0 = 0 := by
  simp [fixP]

theorem norm360_zero : norm360 0 = 0 := by
  norm_num [norm360, jsMod, jsTrunc]

theorem onGrid_neg {p : ℕ} {a : ℚ} (h : onGrid p a) : onGrid p (-a) := by
  obtain ⟨m, rfl⟩ := h
  exact ⟨-m, by push_cast; ring⟩

theorem onGrid_precOf_3 {v : Vertex} {q : ℚ} (h : onGrid (precOf v) q) : onGrid 3 q := by
  cases hv : v.heading with
  | none => simpa [precOf, hv] using h
  | some h0 => exact onGrid_mono (by simpa [precOf, hv] using h)

theorem wellFormedV_parts {v : Vertex} (h : wellFormedV v) :
    onGrid (precOf v) v.x ∧ onGrid (precOf v) v.y ∧ headOut v = v.heading := by
  have he := fixPrecision_eq v
  rw [h] at he
  have hx : v.x = fixP (precOf v) v.x := congrArg Vertex.x he
  have hy : v.y = fixP (precOf v) v.y := congrArg Vertex.y he
  have hh : v.heading = headOut v := congrArg Vertex.heading he
  exact ⟨hx ▸ onGrid_fixP _ _, hy ▸ onGrid_fixP _ _, hh.symm⟩

theorem updateFn_apply_eq {α : Type} (w : ℕ → α) (i : ℕ) (v : α) :
    updateFn w i v i = v := by
  simp [updateFn]

theorem updateFn_apply_ne {α : Type} (w : ℕ → α) {i j : ℕ} (v : α) (h : j ≠ i) :
    updateFn w i v j = w j := by
  simp [updateFn, h]

theorem updateFn_self {α : Type} (w : ℕ → α) (i : ℕ) : updateFn w i (w i) = w := by
  funext j
  by_cases h : j = i <;> simp [updateFn, h]

theorem updateFn_overwrite {α : Type} (w : ℕ → α) (i : ℕ) (a b : α) :
    updateFn (updateFn w i a) i b = updateFn w i b := by
  funext j
  by_cases h : j = i <;> simp [updateFn, h]

theorem updateFn_comm {α : Type} (w : ℕ → α) {i j : ℕ} (a b : α) (h : i ≠ j) :
    updateFn (updateFn w i a) j b = updateFn (updateFn w j b) i a := by
  funext k
  by_cases hk : k = j <;> by_cases hk2 : k = i <;>
    simp_all [updateFn]

/-- Undoing one `updatePropertiesForTarget` with the previous values it
returned restores the target exactly. -/
theorem updateProps_restore (tgt : PObj) (nv : PMap) :
    (updatePropertiesForTarget
      (updatePropertiesForTarget tgt nv).1
      (updatePropertiesForTarget tgt nv).2).1 = tgt := by
  funext k
  simp only [updatePropertiesForTarget]
  cases h : nv k <;> simp [h]

theorem uip_exec_acc (ts : List ℕ) (nv : PMap) (w : ObjWorld) (ps : List PMap) :
    ts.foldl (fun acc tid =>
        let r := updatePropertiesForTarget (acc.1 tid) nv
        (updateFn acc.1 tid r.1, acc.2 ++ [r.2])) (w, ps) =
      ((UpdateInstancesProperties.execute ts nv w).1,
        ps ++ (UpdateInstancesProperties.execute ts nv w).2) := by
  induction ts generalizing w ps with
  | nil => simp [UpdateInstancesProperties.execute]
  | cons t ts ih =>
      rw [UpdateInstancesProperties.execute]
      simp only [List.foldl_cons]
      rw [ih, ih]
      simp

theorem uip_exec_cons (t : ℕ) (ts : List ℕ) (nv : PMap) (w : ObjWorld) :
    UpdateInstancesProperties.execute (t :: ts) nv w =
      ((UpdateInstancesProperties.execute ts nv
          (updateFn w t (updatePropertiesForTarget (w t) nv).1)).1,
        (updatePropertiesForTarget (w t) nv).2 ::
          (UpdateInstancesProperties.execute ts nv
            (updateFn w t (updatePropertiesForTarget (w t) nv).1)).2) := by
  rw [UpdateInstancesProperties.execute]
  simp only [List.foldl_cons]
  rw [uip_exec_acc]
  simp

theorem uip_execW_not_mem (ts : List ℕ) (nv : PMap) (w : ObjWorld) {t : ℕ}
    (h : t ∉ ts) : (UpdateInstancesProperties.execute ts nv w).1 t = w t := by
  induction ts generalizing w with
  | nil => rfl
  | cons s ss ih =>
      rw [uip_exec_cons]
      have hts : t ∉ ss := fun hm => h (List.mem_cons_of_mem _ hm)
      have hne : t ≠ s := fun he => h (he ▸ List.mem_cons_self _ _)
      rw [ih _ hts, updateFn_apply_ne _ _ hne]

theorem uip_execW_update_comm (ts : List ℕ) (nv : PMap) (w : ObjWorld) {t : ℕ}
    (a : PObj) (h : t ∉ ts) :
    (UpdateInstancesProperties.execute ts nv (updateFn w t a)).1 =
      updateFn (UpdateInstancesProperties.execute ts nv w).1 t a := by
  induction ts generalizing w with
  | nil =>
      show updateFn w t a = _
      rfl
  | cons s ss ih =>
      have hts : t ∉ ss := fun hm => h (List.mem_cons_of_mem _ hm)
      have hne : t ≠ s := fun he => h (he ▸ List.mem_cons_self _ _)
      rw [uip_exec_cons, uip_exec_cons]
      simp only
      rw [updateFn_apply_ne _ _ (Ne.symm hne)]
      rw [updateFn_comm _ _ _ hne, ih _ hts]

theorem uip_exec_prevs (ts : List ℕ) (nv : PMap) (w : ObjWorld) (h : ts.Nodup) :
    (UpdateInstancesProperties.execute ts nv w).2 =
      ts.map (fun tid => (updatePropertiesForTarget (w tid) nv).2) := by
  induction ts generalizing w with
  | nil => rfl
  | cons t ss ih =>
      rw [uip_exec_cons]
      obtain ⟨hnm, hnd⟩ := List.nodup_cons.mp h
      simp only [List.map_cons]
      rw [ih _ hnd]
      congr 1
      apply List.map_congr_left
      intro tid hm
      have : tid ≠ t := fun he => hnm (he ▸ hm)
      rw [updateFn_apply_ne _ _ this]

/-- `execute` then `undo` of `UpdateInstancesProperties` restores every
target (over pairwise-distinct targets). -/
theorem uip_roundtrip (ts : List ℕ) (nv : PMap) (w : ObjWorld) (h : ts.Nodup) :
    UpdateInstancesProperties.undo ts
      (UpdateInstancesProperties.execute ts nv w).2
      (UpdateInstancesProperties.execute ts nv w).1 = w := by
  induction ts generalizing w with
  | nil => rfl
  | cons t ss ih =>
      obtain ⟨hnm, hnd⟩ := List.nodup_cons.mp h
      rw [uip_exec_cons]
      rw [UpdateInstancesProperties.undo]
      have hWt : (UpdateInstancesProperties.execute ss nv
          (updateFn w t (updatePropertiesForTarget (w t) nv).1)).1 t =
          (updatePropertiesForTarget (w t) nv).1 := by
        rw [uip_execW_not_mem _ _ _ hnm, updateFn_apply_eq]
      rw [hWt, updateProps_restore]
      rw [uip_execW_update_comm _ _ _ _ hnm, updateFn_overwrite]
      have hprevs : (UpdateInstancesProperties.execute ss nv
          (updateFn w t (updatePropertiesForTarget (w t) nv).1)).2 =
          (UpdateInstancesProperties.execute ss nv w).2 := by
        rw [uip_exec_prevs _ _ _ hnd, uip_exec_prevs _ _ _ hnd]
        apply List.map_congr_left
        intro tid hm
        have : tid ≠ t := fun he => hnm (he ▸ hm)
        rw [updateFn_apply_ne _ _ this]
      rw [hprevs]
      have hwt2 : w t = (UpdateInstancesProperties.execute ss nv w).1 t :=
        (uip_execW_not_mem _ _ _ hnm).symm
      rw [hwt2, updateFn_self]
      exact ih _ hnd

/-- Translation of a point by the drag vector. -/
def dragShift (v : Vertex) (dx dy : ℚ) : Vertex := ⟨v.x + dx, v.y + dy, v.heading⟩

theorem setXY_eq (v : Vertex) (o : Vertex) :
    Vertex.setXY v o = ⟨fixP (precOf v) o.x, fixP (precOf v) o.y, headOut v⟩ := by
  rw [Vertex.setXY, fixPrecision_eq]
  cases hv : v.heading <;> simp [precOf, headOut, hv]

/-- One drag follower step is an exact translation by the drag vector,
provided the control is well formed and the drag vector is representable at
the control's precision. -/
theorem moveStep_eq (fromV toV : Vector) (w : CtrlWorld) (cid : ℕ)
    (hwf : wellFormedV (w cid))
    (hdx : onGrid (precOf (w cid)) (toV.x - fromV.x))
    (hdy : onGrid (precOf (w cid)) (toV.y - fromV.y))
    (hfx : onGrid 3 fromV.x) (hfy : onGrid 3 fromV.y)
    (htx : onGrid 3 toV.x) (hty : onGrid 3 toV.y) :
    DragControls.moveStep fromV toV w cid =
      updateFn w cid (dragShift (w cid) (toV.x - fromV.x) (toV.y - fromV.y)) := by
  obtain ⟨hgx, hgy, hho⟩ := wellFormedV_parts hwf
  have hgx3 : onGrid 3 (w cid).x := onGrid_precOf_3 hgx
  have hgy3 : onGrid 3 (w cid).y := onGrid_precOf_3 hgy
  have hsub : Vertex.subtract (w cid) ⟨fromV.x, fromV.y, none⟩ =
      ⟨(w cid).x - fromV.x, (w cid).y - fromV.y, none⟩ := by
    rw [Vertex.subtract]
    show Vertex.fixPrecision ⟨_, _, none⟩ = _
    rw [Vertex.fixPrecision]
    rw [fixP_eq_self (onGrid_sub hgx3 hfx), fixP_eq_self (onGrid_sub hgy3 hfy)]
  have hadd : Vertex.add ⟨toV.x, toV.y, none⟩ ⟨(w cid).x - fromV.x, (w cid).y - fromV.y, none⟩ =
      ⟨(w cid).x - fromV.x + toV.x, (w cid).y - fromV.y + toV.y, none⟩ := by
    rw [Vertex.add]
    show Vertex.fixPrecision ⟨_, _, none⟩ = _
    rw [Vertex.fixPrecision]
    rw [fixP_eq_self (onGrid_add (onGrid_sub hgx3 hfx) htx),
        fixP_eq_self (onGrid_add (onGrid_sub hgy3 hfy) hty)]
  show updateFn w cid
      (Vertex.setXY (w cid) (Vertex.add ⟨toV.x, toV.y, none⟩
        (Vertex.subtract (w cid) ⟨fromV.x, fromV.y, none⟩))) = _
  rw [hsub, hadd, setXY_eq]
  refine congrArg (updateFn w cid) ?_
  show (⟨fixP (precOf (w cid)) ((w cid).x - fromV.x + toV.x),
        fixP (precOf (w cid)) ((w cid).y - fromV.y + toV.y), headOut (w cid)⟩ : Vertex) = _
  have hx : fixP (precOf (w cid)) ((w cid).x - fromV.x + toV.x) =
      (w cid).x + (toV.x - fromV.x) := by
    rw [show (w cid).x - fromV.x + toV.x = (w cid).x + (toV.x - fromV.x) by ring]
    exact fixP_eq_self (onGrid_add hgx hdx)
  have hy : fixP (precOf (w cid)) ((w cid).y - fromV.y + toV.y) =
      (w cid).y + (toV.y - fromV.y) := by
    rw [show (w cid).y - fromV.y + toV.y = (w cid).y + (toV.y - fromV.y) by ring]
    exact fixP_eq_self (onGrid_add hgy hdy)
  rw [hx, hy, hho, dragShift]

/-- A well-formed control stays well formed when translated by a vector at
its own precision. -/
theorem wellFormedV_dragShift {v : Vertex} {dx dy : ℚ} (hwf : wellFormedV v)
    (hdx : onGrid (precOf v) dx) (hdy : onGrid (precOf v) dy) :
    wellFormedV (dragShift v dx dy) := by
  obtain ⟨hgx, hgy, hho⟩ := wellFormedV_parts hwf
  rw [wellFormedV, fixPrecision_eq]
  have hpre : precOf (dragShift v dx dy) = precOf v := by
    cases hv : v.heading <;> simp [precOf, dragShift, hv]
  have hhead : headOut (dragShift v dx dy) = headOut v := by
    cases hv : v.heading <;> simp [headOut, dragShift, hv]
  rw [hpre, hhead, hho]
  show (⟨fixP _ (v.x + dx), fixP _ (v.y + dy), v.heading⟩ : Vertex) = _
  rw [fixP_eq_self (onGrid_add hgx hdx), fixP_eq_self (onGrid_add hgy hdy)]
  rfl

theorem precOf_dragShift (v : Vertex) (dx dy : ℚ) :
    precOf (dragShift v dx dy) = precOf v := by
  cases hv : v.heading <;> simp [precOf, dragShift, hv]

theorem moveStep_apply_ne (fromV toV : Vector) (w : CtrlWorld) (cid cid' : ℕ)
    (h : cid' ≠ cid) : DragControls.moveStep fromV toV w cid cid' = w cid' := by
  rw [DragControls.moveStep]
  exact updateFn_apply_ne _ _ h

/-- The follower fold of a drag translates exactly the followers. -/
theorem drag_fold_eq (fromV toV : Vector) (followers : List ℕ) (w : CtrlWorld)
    (hnd : followers.Nodup)
    (hwf : ∀ f ∈ followers, wellFormedV (w f))
    (hgrid : ∀ f ∈ followers,
      onGrid (precOf (w f)) (toV.x - fromV.x) ∧ onGrid (precOf (w f)) (toV.y - fromV.y))
    (hfx : onGrid 3 fromV.x) (hfy : onGrid 3 fromV.y)
    (htx : onGrid 3 toV.x) (hty : onGrid 3 toV.y) :
    followers.foldl (DragControls.moveStep fromV toV) w =
      fun cid => if cid ∈ followers then
        dragShift (w cid) (toV.x - fromV.x) (toV.y - fromV.y) else w cid := by
  induction followers generalizing w with
  | nil => funext cid; simp
  | cons f fs ih =>
      obtain ⟨hnm, hnd2⟩ := List.nodup_cons.mp hnd
      have hstep := moveStep_eq fromV toV w f (hwf f (List.mem_cons_self _ _))
        (hgrid f (List.mem_cons_self _ _)).1 (hgrid f (List.mem_cons_self _ _)).2
        hfx hfy htx hty
      simp only [List.foldl_cons]
      rw [hstep]
      set w1 := updateFn w f (dragShift (w f) (toV.x - fromV.x) (toV.y - fromV.y)) with hw1
      have hw1ne : ∀ g, g ≠ f → w1 g = w g := by
        intro g hg
        rw [hw1, updateFn_apply_ne _ _ hg]
      have hrec := ih w1 hnd2
        (by
          intro g hg
          have hne : g ≠ f := fun he => hnm (he ▸ hg)
          rw [hw1ne g hne]
          exact hwf g (List.mem_cons_of_mem _ hg))
        (by
          intro g hg
          have hne : g ≠ f := fun he => hnm (he ▸ hg)
          rw [hw1ne g hne]
          exact hgrid g (List.mem_cons_of_mem _ hg))
      rw [hrec]
      funext cid
      by_cases hc : cid ∈ fs
      · have hne : cid ≠ f := fun he => hnm (he ▸ hc)
        simp only [if_pos hc, if_pos (List.mem_cons_of_mem f hc), hw1ne cid hne]
      · by_cases hcf : cid = f
        · subst hcf
          simp only [if_neg hc, if_pos (List.mem_cons_self cid fs), hw1, updateFn_apply_eq]
        · have : cid ∉ f :: fs := by
            intro hmem
            rcases List.mem_cons.mp hmem with h1 | h2
            · exact hcf h1
            · exact hc h2
          simp only [if_neg hc, if_neg this, hw1ne cid hcf]

/-- Pointwise description of the world after `DragControls.execute`: the
primary control sits at `to`, every follower is translated by the drag
vector, everything else is untouched. -/
def dragExecuted (main : ℕ) (fromV toV : Vector) (followers : List ℕ)
    (w : CtrlWorld) : CtrlWorld :=
  fun cid =>
    if cid = main then ⟨toV.x, toV.y, (w main).heading⟩
    else if cid ∈ followers then
      dragShift (w cid) (toV.x - fromV.x) (toV.y - fromV.y)
    else w cid

/-- `execute` then `undo` of `DragControls` restores every control, provided
the controls are pairwise distinct, the primary control starts at `from`,
every stored value is already at its fixed precision, and the drag vector is
representable at every moved control's coordinate precision. -/
theorem drag_roundtrip (main : ℕ) (fromV toV : Vector) (followers : List ℕ)
    (w : CtrlWorld)
    (hnd : followers.Nodup) (hmainmem : main ∉ followers)
    (hwf : ∀ c ∈ main :: followers, wellFormedV (w c))
    (hgrid : ∀ c ∈ main :: followers,
      onGrid (precOf (w c)) (toV.x - fromV.x) ∧ onGrid (precOf (w c)) (toV.y - fromV.y))
    (hfx : onGrid 3 fromV.x) (hfy : onGrid 3 fromV.y)
    (htx : onGrid 3 toV.x) (hty : onGrid 3 toV.y)
    (hposx : (w main).x = fromV.x) (hposy : (w main).y = fromV.y) :
    DragControls.undo main fromV toV followers
      (DragControls.execute main fromV toV followers w) = w := by
  have hwfF : ∀ f ∈ followers, wellFormedV (w f) :=
    fun f hf => hwf f (List.mem_cons_of_mem _ hf)
  have hgridF : ∀ f ∈ followers,
      onGrid (precOf (w f)) (toV.x - fromV.x) ∧ onGrid (precOf (w f)) (toV.y - fromV.y) :=
    fun f hf => hgrid f (List.mem_cons_of_mem _ hf)
  have hfold := drag_fold_eq fromV toV followers w hnd hwfF hgridF hfx hfy htx hty
  obtain ⟨hgmx, hgmy, hgmh⟩ := wellFormedV_parts (hwf main (List.mem_cons_self _ _))
  have hgd := hgrid main (List.mem_cons_self _ _)
  -- execute equals its pointwise description
  have hE : DragControls.execute main fromV toV followers w =
      dragExecuted main fromV toV followers w := by
    show updateFn (followers.foldl (DragControls.moveStep fromV toV) w) main
        (Vertex.setXY ((followers.foldl (DragControls.moveStep fromV toV) w) main)
          ⟨toV.x, toV.y, none⟩) = _
    rw [hfold]
    simp only [if_neg hmainmem]
    have hset : Vertex.setXY (w main) ⟨toV.x, toV.y, none⟩ =
        ⟨toV.x, toV.y, (w main).heading⟩ := by
      have hx : toV.x = (w main).x + (toV.x - fromV.x) := by rw [hposx]; ring
      have hy : toV.y = (w main).y + (toV.y - fromV.y) := by rw [hposy]; ring
      have h1 : fixP (precOf (w main)) toV.x = toV.x := by
        rw [hx, fixP_eq_self (onGrid_add hgmx hgd.1)]
      have h2 : fixP (precOf (w main)) toV.y = toV.y := by
        rw [hy, fixP_eq_self (onGrid_add hgmy hgd.2)]
      simp only [setXY_eq]
      rw [hgmh, h1, h2]
    rw [hset]
    funext cid
    by_cases hcm : cid = main
    · subst hcm
      rw [updateFn_apply_eq]
      simp [dragExecuted]
    · rw [updateFn_apply_ne _ _ hcm]
      simp [dragExecuted, hcm]
  rw [hE]
  -- facts about the executed world
  have hwEf : ∀ f ∈ followers, dragExecuted main fromV toV followers w f =
      dragShift (w f) (toV.x - fromV.x) (toV.y - fromV.y) := by
    intro f hf
    have hne : f ≠ main := fun he => hmainmem (he ▸ hf)
    simp [dragExecuted, hne, hf]
  have hwfE : ∀ f ∈ followers, wellFormedV (dragExecuted main fromV toV followers w f) := by
    intro f hf
    rw [hwEf f hf]
    exact wellFormedV_dragShift (hwfF f hf) (hgridF f hf).1 (hgridF f hf).2
  have hgridE : ∀ f ∈ followers,
      onGrid (precOf (dragExecuted main fromV toV followers w f)) (fromV.x - toV.x) ∧
      onGrid (precOf (dragExecuted main fromV toV followers w f)) (fromV.y - toV.y) := by
    intro f hf
    rw [hwEf f hf, precOf_dragShift]
    constructor
    · rw [show fromV.x - toV.x = -(toV.x - fromV.x) by ring]
      exact onGrid_neg (hgridF f hf).1
    · rw [show fromV.y - toV.y = -(toV.y - fromV.y) by ring]
      exact onGrid_neg (hgridF f hf).2
  have hfold2 := drag_fold_eq toV fromV followers (dragExecuted main fromV toV followers w)
    hnd hwfE hgridE htx hty hfx hfy
  have hEmain : dragExecuted main fromV toV followers w main =
      ⟨toV.x, toV.y, (w main).heading⟩ := by
    simp [dragExecuted]
  have hback : Vertex.setXY (⟨toV.x, toV.y, (w main).heading⟩ : Vertex)
      ⟨fromV.x, fromV.y, none⟩ = w main := by
    have hpree : precOf (⟨toV.x, toV.y, (w main).heading⟩ : Vertex) = precOf (w main) := by
      cases hv : (w main).heading <;> simp [precOf, hv]
    have hheade : headOut (⟨toV.x, toV.y, (w main).heading⟩ : Vertex) = headOut (w main) := by
      cases hv : (w main).heading <;> simp [headOut, hv]
    have h1 : fixP (precOf (w main)) fromV.x = fromV.x := by
      rw [← hposx]
      exact fixP_eq_self hgmx
    have h2 : fixP (precOf (w main)) fromV.y = fromV.y := by
      rw [← hposy]
      exact fixP_eq_self hgmy
    simp only [setXY_eq]
    rw [hpree, hheade, hgmh, h1, h2, ← hposx, ← hposy]
  show updateFn (followers.foldl (DragControls.moveStep toV fromV)
        (dragExecuted main fromV toV followers w)) main
      (Vertex.setXY ((followers.foldl (DragControls.moveStep toV fromV)
        (dragExecuted main fromV toV followers w)) main)
        ⟨fromV.x, fromV.y, none⟩) = w
  rw [hfold2]
  funext cid
  by_cases hcm : cid = main
  · subst hcm
    rw [updateFn_apply_eq]
    simp only [if_neg hmainmem, hEmain]
    exact hback
  · rw [updateFn_apply_ne _ _ hcm]
    by_cases hcf : cid ∈ followers
    · simp only [if_pos hcf, hwEf cid hcf]
      show dragShift (dragShift (w cid) (toV.x - fromV.x) (toV.y - fromV.y))
        (fromV.x - toV.x) (fromV.y - toV.y) = w cid
      show (⟨(w cid).x + (toV.x - fromV.x) + (fromV.x - toV.x),
            (w cid).y + (toV.y - fromV.y) + (fromV.y - toV.y), (w cid).heading⟩ : Vertex) = w cid
      rw [show (w cid).x + (toV.x - fromV.x) + (fromV.x - toV.x) = (w cid).x by ring,
          show (w cid).y + (toV.y - fromV.y) + (fromV.y - toV.y) = (w cid).y by ring]
    · simp only [if_neg hcf]
      simp [dragExecuted, hcm, hcf]

/-- A world with a plain control `0` at the origin and an `EndPointControl`
`1` at the origin with heading `0` — all fields at fixed precision. -/
def dragCexWorld : CtrlWorld := fun i => if i = 0 then ⟨0, 0, none⟩ else ⟨0, 0, some 0⟩

/-- C1 counterexample: executing a `DragControls` with drag vector
`(0.005, 0)` on an `EndPointControl` follower and then undoing it does not
restore the follower, even though every pre-execute field is at its fixed
precision: `execute` rounds the follower to `x = 0.01` (2-decimal
`fixPrecision`), and `undo` moves it back by `0.005` and rounds again to
`0.01`, not `0`. -/
theorem command_roundtrip_counterexample :
    wellFormedV (dragCexWorld 1) ∧ wellFormedV (dragCexWorld 0) ∧
    (dragCexWorld 0).x = 0 ∧ (dragCexWorld 0).y = 0 ∧
    (DragControls.undo 0 ⟨0, 0⟩ ⟨1/200, 0⟩ [1]
      (DragControls.execute 0 ⟨0, 0⟩ ⟨1/200, 0⟩ [1] dragCexWorld)) 1 =
      ⟨1/100, 0, some 0⟩ ∧
    dragCexWorld 1 = ⟨0, 0, some 0⟩ ∧ ((1 : ℚ)/100) ≠ 0 := by
  have e1 : fixP 3 (0 : ℚ) = 0 := fixP_zero 3
  have e2 : fixP 2 (0 : ℚ) = 0 := fixP_zero 2
  have e3 : fixP 2 (norm360 0) = 0 := by rw [norm360_zero]; exact fixP_zero 2
  refine ⟨?_, ?_, by simp [dragCexWorld], by simp [dragCexWorld], ?_, by simp [dragCexWorld], by norm_num⟩
  · show Vertex.fixPrecision ⟨0, 0, some 0⟩ = ⟨0, 0, some 0⟩
    show (⟨fixP 2 0, fixP 2 0, some (fixP 2 (norm360 0))⟩ : Vertex) = ⟨0, 0, some 0⟩
    rw [e2, e3]
  · show Vertex.fixPrecision ⟨0, 0, none⟩ = ⟨0, 0, none⟩
    show (⟨fixP 3 0, fixP 3 0, none⟩ : Vertex) = ⟨0, 0, none⟩
    rw [e1]
  · norm_num [DragControls.undo, DragControls.execute, DragControls.moveStep,
      Vertex.setXY, Vertex.add, Vertex.subtract, Vertex.fixPrecision, updateFn,
      dragCexWorld, norm360, jsMod, jsTrunc, fixP, round_eq]

/-- C1 amended: `execute` then `undo` restores every touched field and
`redo` after `undo` reproduces the exact post-execute state, *provided* (for
`UpdateInstancesProperties`) the targets are pairwise distinct, and (for
`DragControls`) the moved controls are pairwise distinct, the primary
control starts at `from`, every control is at its fixed precision, and the
drag vector is representable at every moved control's coordinate precision
(2 decimals for end-point controls, 3 for plain controls). -/
theorem command_roundtrip_amended :
    (∀ (ts : List ℕ) (nv : PMap) (w : ObjWorld), ts.Nodup →
      UpdateInstancesProperties.undo ts
        (UpdateInstancesProperties.execute ts nv w).2
        (UpdateInstancesProperties.execute ts nv w).1 = w ∧
      UpdateInstancesProperties.redo ts nv
        (UpdateInstancesProperties.undo ts
          (UpdateInstancesProperties.execute ts nv w).2
          (UpdateInstancesProperties.execute ts nv w).1) =
        UpdateInstancesProperties.execute ts nv w) ∧
    (∀ (main : ℕ) (fromV toV : Vector) (followers : List ℕ) (w : CtrlWorld),
      followers.Nodup → main ∉ followers →
      (∀ c ∈ main :: followers, wellFormedV (w c)) →
      (∀ c ∈ main :: followers,
        onGrid (precOf (w c)) (toV.x - fromV.x) ∧ onGrid (precOf (w c)) (toV.y - fromV.y)) →
      onGrid 3 fromV.x → onGrid 3 fromV.y → onGrid 3 toV.x → onGrid 3 toV.y →
      (w main).x = fromV.x → (w main).y = fromV.y →
      DragControls.undo main fromV toV followers
        (DragControls.execute main fromV toV followers w) = w ∧
      DragControls.redo main fromV toV followers
        (DragControls.undo main fromV toV followers
          (DragControls.execute main fromV toV followers w)) =
        DragControls.execute main fromV toV followers w) := by
  constructor
  · intro ts nv w hnd
    have h := uip_roundtrip ts nv w hnd
    refine ⟨h, ?_⟩
    rw [UpdateInstancesProperties.redo, h]
  · intro main fromV toV followers w hnd hmm hwf hgrid hfx hfy htx hty hpx hpy
    have h := drag_roundtrip main fromV toV followers w hnd hmm hwf hgrid hfx hfy htx hty hpx hpy
    refine ⟨h, ?_⟩
    rw [DragControls.redo, h]

/-- A world with a plain control `0` at the origin and a plain control `1`
at `(1, 0)`. -/
def dragWitWorld : CtrlWorld := fun i => if i = 0 then ⟨0, 0, none⟩ else ⟨1, 0, none⟩

def uipWitWorld : ObjWorld := fun _ _ => 0

/-- Witness for the amended C1 theorem at concrete inputs. -/
theorem command_roundtrip_amended_witness :
    UpdateInstancesProperties.undo [0]
      (UpdateInstancesProperties.execute [0] (fun k => if k = 0 then some 5 else none) uipWitWorld).2
      (UpdateInstancesProperties.execute [0] (fun k => if k = 0 then some 5 else none) uipWitWorld).1 =
      uipWitWorld ∧
    DragControls.undo 0 ⟨0, 0⟩ ⟨1/100, 0⟩ [1]
      (DragControls.execute 0 ⟨0, 0⟩ ⟨1/100, 0⟩ [1] dragWitWorld) = dragWitWorld := by
  have hwf0 : wellFormedV (⟨0, 0, none⟩ : Vertex) := by
    show (⟨fixP 3 0, fixP 3 0, none⟩ : Vertex) = ⟨0, 0, none⟩
    rw [fixP_zero]
  have hwf1 : wellFormedV (⟨1, 0, none⟩ : Vertex) := by
    show (⟨fixP 3 1, fixP 3 0, none⟩ : Vertex) = ⟨1, 0, none⟩
    rw [fixP_zero]
    have : fixP 3 (1 : ℚ) = 1 := by norm_num [fixP, round_eq]
    rw [this]
  constructor
  · exact (command_roundtrip_amended.1 [0] _ uipWitWorld (by simp)).1
  · refine (command_roundtrip_amended.2 0 ⟨0, 0⟩ ⟨1/100, 0⟩ [1] dragWitWorld
      (by simp) (by simp) ?_ ?_ ?_ ?_ ?_ ?_ ?_ ?_).1
    · intro c hc
      have : c = 0 ∨ c = 1 := by simpa using hc
      rcases this with rfl | rfl
      · simpa [dragWitWorld] using hwf0
      · simpa [dragWitWorld] using hwf1
    · intro c hc
      have : c = 0 ∨ c = 1 := by simpa using hc
      have hg : onGrid 3 ((1 : ℚ)/100 - 0) := ⟨10, by norm_num⟩
      have hg0 : onGrid 3 ((0 : ℚ) - 0) := ⟨0, by norm_num⟩
      rcases this with rfl | rfl
      · exact ⟨by simpa [dragWitWorld, precOf] using hg, by simpa [dragWitWorld, precOf] using hg0⟩
      · exact ⟨by simpa [dragWitWorld, precOf] using hg, by simpa [dragWitWorld, precOf] using hg0⟩
    · exact ⟨0, by norm_num⟩
    · exact ⟨0, by norm_num⟩
    · exact ⟨10, by norm_num⟩
    · exact ⟨0, by norm_num⟩
    · simp [dragWitWorld]
    · simp [dragWitWorld]

/-! ### The command history (claims C2, C3)

`CommandHistory` keeps two stacks (`history`, `redoHistory`) of commands, a
pending merge-coalescing slot `lastExecution`, and the `savedCommand`
reference.  Commands are mutable objects: the stacks store identifiers into
a heap `ℕ → Cmd`, and reference identity (`!==`) is identifier equality.
The two mergeable command variants relevant to the claims are embedded
(`UpdateInstancesProperties` and `DragControls`); their state lives in the
constructor arguments, and their world effects act on `World`. -/

structure World where
  objs : ObjWorld
  ctrls : CtrlWorld

inductive Cmd where
  | uip (targets : List ℕ) (newValues : PMap) (previousValue : Option (List PMap))
  | drag (main : ℕ) (fromV toV : Vector) (followers : List ℕ)

/-- `command.execute()`: runs the variant's `execute` and stores the
captured state back into the command. -/
def Cmd.executeRun : Cmd → World → Cmd × World
  | .uip tg nv _, w =>
      let r := UpdateInstancesProperties.execute tg nv w.objs
      (.uip tg nv (some r.2), ⟨r.1, w.ctrls⟩)
  | .drag m f t fol, w =>
      (.drag m f t fol, ⟨w.objs, DragControls.execute m f t fol w.ctrls⟩)

/-- `isMergeable(object): 'merge' in object` — both embedded variants
implement `merge`. -/
def Cmd.mergeableFlag : Cmd → Bool
  | .uip _ _ _ => true
  | .drag _ _ _ _ => true

/-- In JavaScript, `typeof` of any (non-null, non-function) object is the
string `"object"`; the source's
`typeof (exe.command) === typeof (this.lastExecution.command)` therefore
compares `"object"` with `"object"` for every pair of command instances. -/
def Cmd.jsTypeof : Cmd → String := fun _ => "object"

/-- The concrete (constructor) kind of a command — what the spec calls the
"concrete command kind". -/
def Cmd.kind : Cmd → ℕ
  | .uip _ _ _ => 0
  | .drag _ _ _ _ => 1

/-- `command.previousValue` read through the interface: `undefined` (`none`)
on a `DragControls`, which has no such property. -/
def Cmd.previousValueOf : Cmd → Option (List PMap)
  | .uip _ _ p => p
  | .drag _ _ _ _ => none

/-- `command.newValues` read through the interface. -/
def Cmd.newValuesOf : Cmd → Option PMap
  | .uip _ nv _ => some nv
  | .drag _ _ _ _ => none

/-- `prev.merge(latest)`.  The result is `none` when the JS code throws a
`TypeError` (accessing `[i]` or `.length` on `undefined`):
`UpdateInstancesProperties.merge` dereferences `previousValue![i]` of both
commands inside its loop (skipped entirely when `targets` is empty), and
`DragControls.merge` dereferences `command.followers.length`.  Otherwise it
returns the mutated receiver and the boolean result. -/
def Cmd.merge : Cmd → Cmd → Option (Cmd × Bool)
  | .uip tg nv ps?, latest =>
      match tg, ps? with
      | [], _ =>
          -- the for-loop body never runs; nothing is dereferenced or changed
          some (.uip [] nv ps?, true)
      | _ :: _, none => none
      | t :: ts, some ps =>
          match latest.previousValueOf with
          | none => none
          | some qs =>
              let r := (List.range (t :: ts).length).foldl (fun acc i =>
                (acc.1.set i (pmSpread (qs.getD i pmEmpty) (acc.1.getD i pmEmpty)),
                 match latest.newValuesOf with
                 | some lnv => pmSpread acc.2 lnv
                 | none => acc.2)) (ps, nv)
              some (.uip (t :: ts) r.2 (some r.1), true)
  | .drag m f t fol, latest =>
      match latest with
      | .drag m2 _ t2 fol2 =>
          if fol.length ≠ fol2.length then some (.drag m f t fol, false)
          else if (List.range fol.length).any (fun i => fol.getD i 0 != fol2.getD i 0) then
            some (.drag m f t fol, false)
          else if m ≠ m2 then some (.drag m f t fol, false)
          else some (.drag m f t2 fol, true)
      | .uip _ _ _ => none

structure Execution where
  title : String
  cmdId : ℕ
  time : ℤ
  mergeTimeout : ℤ
deriving DecidableEq

structure CommandHistory where
  lastExecution : Option Execution
  history : List ℕ
  redoHistory : List ℕ
  savedCommand : Option ℕ
  heap : ℕ → Cmd
  world : World

/-- `commit()`: flush the pending entry onto the done-stack. -/
def CommandHistory.commit (st : CommandHistory) : CommandHistory :=
  match st.lastExecution with
  | some le => { st with history := st.history ++ [le.cmdId], lastExecution := none }
  | none => st

/-- `execute(title, command, mergeTimeout = 500)`: run the command, then
either merge it into the pending entry (same title, both mergeable, equal
`typeof`, elapsed time below the window, and the merge predicate succeeds)
or commit the pending entry and open a new one; in both cases clear the
redo-stack.  Returns `none` when `merge` throws — the exception propagates
out of `execute` before `redoHistory` is cleared. -/
def CommandHistory.execute (st0 : CommandHistory) (title : String) (cid : ℕ)
    (time mergeTimeout : ℤ) : Option CommandHistory :=
  let r := (st0.heap cid).executeRun st0.world
  let st := { st0 with heap := updateFn st0.heap cid r.1, world := r.2 }
  match st.lastExecution with
  | some le =>
      if title = le.title ∧ (st.heap cid).mergeableFlag ∧ (st.heap le.cmdId).mergeableFlag ∧
          (st.heap cid).jsTypeof = (st.heap le.cmdId).jsTypeof ∧
          time - le.time < mergeTimeout then
        match (st.heap le.cmdId).merge (st.heap cid) with
        | none => none
        | some (prev2, true) =>
            some { st with
                    heap := updateFn st.heap le.cmdId prev2,
                    lastExecution := some { le with time := time },
                    redoHistory := [] }
        | some (prev2, false) =>
            some { CommandHistory.commit { st with heap := updateFn st.heap le.cmdId prev2 } with
                    lastExecution := some ⟨title, cid, time, mergeTimeout⟩,
                    redoHistory := [] }
      else
        some { st.commit with
                lastExecution := some ⟨title, cid, time, mergeTimeout⟩,
                redoHistory := [] }
  | none =>
      some { st.commit with
              lastExecution := some ⟨title, cid, time, mergeTimeout⟩,
              redoHistory := [] }

/-- `save()`: commit, then remember the top of the done-stack by reference. -/
def CommandHistory.save (st : CommandHistory) : CommandHistory :=
  let st1 := st.commit
  { st1 with savedCommand := st1.history.getLast? }

/-- `isModified()`: commit, then compare the saved reference against the top
of the done-stack (`!==`). -/
def CommandHistory.isModified (st : CommandHistory) : Bool × CommandHistory :=
  let st1 := st.commit
  (decide (st1.savedCommand ≠ st1.history.getLast?), st1)

theorem commit_lastExecution (st : CommandHistory) : st.commit.lastExecution = none := by
  rw [CommandHistory.commit]
  cases h : st.lastExecution <;> simp [h]

theorem commit_of_none {st : CommandHistory} (h : st.lastExecution = none) :
    st.commit = st := by
  rw [CommandHistory.commit, h]

theorem mem_of_getLast?_eq {α : Type} {l : List α} {x : α} (h : l.getLast? = some x) :
    x ∈ l := by
  have hx : x ∈ l.getLast? := by rw [h]; rfl
  obtain ⟨hne, heq⟩ := List.mem_getLast?_eq_getLast hx
  rw [heq]
  exact List.getLast_mem hne

theorem getLast?_concat_eq {α : Type} (l : List α) (a : α) :
    (l ++ [a]).getLast? = some a := by
  rw [List.getLast?_append_cons l a []]
  rfl

/-- C2: every `execute` call that completes normally leaves an empty redo
stack; `isModified` returns `false` immediately after `save`; and after a
`save`, executing a fresh command (one whose instance is neither in the done
stack nor pending — re-executing an already-executed command violates the
command contract) and committing it makes `isModified` return `true`. -/
theorem commandHistory_laws :
    (∀ (st : CommandHistory) (title : String) (cid : ℕ) (time mt : ℤ)
        (st1 : CommandHistory),
      CommandHistory.execute st title cid time mt = some st1 →
      st1.redoHistory = []) ∧
    (∀ st : CommandHistory,
      (CommandHistory.isModified (CommandHistory.save st)).1 = false) ∧
    (∀ (st : CommandHistory) (title : String) (cid : ℕ) (time mt : ℤ)
        (st1 : CommandHistory),
      cid ∉ st.history →
      (∀ le, st.lastExecution = some le → le.cmdId ≠ cid) →
      CommandHistory.execute (CommandHistory.save st) title cid time mt = some st1 →
      (CommandHistory.isModified st1).1 = true) := by
  refine ⟨?_, ?_, ?_⟩
  · intro st title cid time mt st1 h
    simp only [CommandHistory.execute] at h
    split at h
    · split at h
      · split at h
        · exact absurd h (by simp)
        · obtain rfl := Option.some.inj h
          rfl
        · obtain rfl := Option.some.inj h
          rfl
      · obtain rfl := Option.some.inj h
        rfl
    · obtain rfl := Option.some.inj h
      rfl
  · intro st
    have h1 : (CommandHistory.save st).lastExecution = none := by
      rw [CommandHistory.save]
      exact commit_lastExecution st
    simp only [CommandHistory.isModified]
    rw [commit_of_none h1]
    simp [CommandHistory.save]
  · intro st title cid time mt st1 hfresh hfresh2 h
    rcases hle : st.lastExecution with _ | le
    · simp only [CommandHistory.execute, CommandHistory.save, CommandHistory.commit, hle] at h
      obtain rfl := Option.some.inj h
      simp only [CommandHistory.isModified, CommandHistory.commit]
      simp only [getLast?_concat_eq]
      rw [decide_eq_true_iff]
      intro heq
      exact hfresh (mem_of_getLast?_eq heq)
    · simp only [CommandHistory.execute, CommandHistory.save, CommandHistory.commit, hle] at h
      obtain rfl := Option.some.inj h
      simp only [CommandHistory.isModified, CommandHistory.commit]
      simp only [getLast?_concat_eq]
      rw [decide_eq_true_iff]
      intro heq
      exact hfresh2 le hle (Option.some.inj heq)

def c2Heap : ℕ → Cmd := fun _ => Cmd.uip [] pmEmpty none

def c2World : World := ⟨fun _ _ => 0, fun _ => ⟨0, 0, none⟩⟩

/-- An empty history over a small heap. -/
def c2Wst : CommandHistory :=
  { lastExecution := none, history := [], redoHistory := [], savedCommand := none,
    heap := c2Heap, world := c2World }

/-- Witness for C2 at a concrete run: save, execute a fresh command,
then observe the redo stack, the saved flag, and the dirty flag. -/
theorem commandHistory_laws_witness :
    ((CommandHistory.execute (CommandHistory.save c2Wst) "a" 1 5 500).map
      CommandHistory.redoHistory = some []) ∧
    (CommandHistory.isModified (CommandHistory.save c2Wst)).1 = false ∧
    ((CommandHistory.execute (CommandHistory.save c2Wst) "a" 1 5 500).map
      (fun s => (CommandHistory.isModified s).1) = some true) := by
  have hs : (CommandHistory.execute (CommandHistory.save c2Wst) "a" 1 5 500).isSome = true := by
    rfl
  obtain ⟨st1, hst1⟩ := Option.isSome_iff_exists.mp hs
  refine ⟨?_, commandHistory_laws.2.1 c2Wst, ?_⟩
  · rw [hst1, Option.map_some']
    rw [commandHistory_laws.1 _ "a" 1 5 500 st1 hst1]
  · rw [hst1, Option.map_some']
    rw [commandHistory_laws.2.2 c2Wst "a" 1 5 500 st1 (by simp [c2Wst])
      (by intro le hle; simp [c2Wst] at hle) hst1]

def c3Heap : ℕ → Cmd := fun i =>
  if i = 0 then Cmd.uip [] pmEmpty (some []) else Cmd.drag 7 ⟨0, 0⟩ ⟨1, 0⟩ []

/-- A history whose pending entry is an executed `UpdateInstancesProperties`
(command `0`, title `"t"`, touched at time `0`, window `500`). -/
def c3St0 : CommandHistory :=
  { lastExecution := some ⟨"t", 0, 0, 500⟩, history := [], redoHistory := [],
    savedCommand := none, heap := c3Heap, world := c2World }

/-- C3 / code bug: the claim (and the spec) require a merge to happen only
when both commands are of the same concrete kind, but the source checks
`typeof (exe.command) === typeof (this.lastExecution.command)`, which is
`"object" === "object"` for every pair of command objects.  Executing a
`DragControls` (command `1`) with the same title within the merge window
while an `UpdateInstancesProperties` is pending merges the two commands of
different concrete kinds into the single pending entry
(`UpdateInstancesProperties.merge` returns `true` regardless of its
argument's kind): the done-stack stays empty and the pending entry is still
command `0` with its touch time refreshed. -/
theorem commandHistory_merge_cross_kind_bug :
    Cmd.kind (c3Heap 0) ≠ Cmd.kind (c3Heap 1) ∧
    Cmd.mergeableFlag (c3Heap 0) = true ∧ Cmd.mergeableFlag (c3Heap 1) = true ∧
    (CommandHistory.execute c3St0 "t" 1 100 500).map CommandHistory.history = some [] ∧
    (CommandHistory.execute c3St0 "t" 1 100 500).map CommandHistory.lastExecution =
      some (some ⟨"t", 0, 100, 500⟩) := by
  exact ⟨by decide, rfl, rfl, rfl, rfl⟩

/-! ### Splines, paths and knot generation (claims C4–C7, C10)

A `Spline`'s controls are a list of points (`Vertex`, with `heading = some _`
on the two `EndPointControl` ends); a `Path` is a list of splines.  `Knot`
carries position, chord `delta`, cumulative `integral`, `speed` and an
optional `heading`.  JavaScript numbers are exact rationals here; `Math.sqrt`
is a function parameter `sq` assumed to satisfy the square root's sign laws
(`SqrtLike`). -/

/-- The sign laws of the real square root, all that the theorems below use
of `Math.sqrt`. -/
structure SqrtLike (sq : ℚ → ℚ) : Prop where
  nonneg : ∀ q, 0 ≤ sq q
  zero : sq 0 = 0
  pos : ∀ q, 0 < q → 0 < sq q

/-- A simple `SqrtLike` function used to instantiate concrete runs. -/
def sqStep (q : ℚ) : ℚ := if 0 < q then 1 else 0

theorem sqStep_sqrtLike : SqrtLike sqStep where
  nonneg := fun q => by unfold sqStep; split <;> norm_num
  zero := by unfold sqStep; norm_num
  pos := fun q h => by unfold sqStep; rw [if_pos h]; norm_num

/-- `Math.sqrt(Math.pow(x1 - x2, 2) + Math.pow(y1 - y2, 2))`. -/
def distQ (sq : ℚ → ℚ) (x1 y1 x2 y2 : ℚ) : ℚ := sq ((x1 - x2) ^ 2 + (y1 - y2) ^ 2)

structure Knot where
  x : ℚ
  y : ℚ
  delta : ℚ
  integral : ℚ
  speed : ℚ
  heading : Option ℚ

/-- Stand-in value for a JavaScript `undefined` array read; every proven or
evaluated run below stays in bounds, so it is never observed. -/
def junkKnot : Knot := ⟨0, 0, 0, 0, 0, none⟩

/-- `Modelled from the spec: the units-conversion collaborator
(`UnitConverter.fromAtoB`, whose source file is not part of the analysed
sources) is "a pure function converting a scalar length between two named
units", modelled as multiplication by a conversion factor.` -/
def UnitConverter.fromAtoB (factor q : ℚ) : ℚ := factor * q

/-- The iterative product/quotient binomial coefficient:
`for (i = n-k+1; i <= n; i++) coeff *= i; for (i = 1; i <= k; i++) coeff /= i`. -/
def binomial (n k : ℕ) : ℚ :=
  let c1 := (List.range' (n - k + 1) k).foldl (fun (c : ℚ) (i : ℕ) => c * (i : ℚ)) 1
  (List.range' 1 k).foldl (fun (c : ℚ) (i : ℕ) => c / (i : ℚ)) c1

/-- `bernstein(n, i, t) = binomial(n, i) * t^i * (1-t)^(n-i)`. -/
def bernstein (n i : ℕ) (t : ℚ) : ℚ := binomial n i * t ^ i * (1 - t) ^ (n - i)

/-- The inner Bernstein-basis accumulation of `calculateBezierCurveKnots`
(`point.x += controlPoint.x * bernstein; ...` for `i = 0..n`), written as a
sum (rational addition is order-independent). -/
def pointAt (cs : List Vertex) (t : ℚ) : ℚ × ℚ :=
  let n := cs.length - 1
  (((List.range (n + 1)).map (fun i => (cs.getD i ⟨0, 0, none⟩).x * bernstein n i t)).sum,
   ((List.range (n + 1)).map (fun i => (cs.getD i ⟨0, 0, none⟩).y * bernstein n i t)).sum)

/-- The parameter values visited by `for (let t = 0; t <= 1; t += interval)`
(exact rational accumulation: the k-th visited value is `k * interval`).
A non-positive interval never terminates in JS (or, for `Infinity`, stops
after one iteration); it is modelled as the single sample `t = 0` and every
theorem below assumes `0 < interval`. -/
def sampleCount (interval : ℚ) : ℕ :=
  if 0 < interval then (⌊1 / interval⌋).toNat + 1 else 1

def sampleTs (interval : ℚ) : List ℚ :=
  (List.range (sampleCount interval)).map (fun (k : ℕ) => (k : ℚ) * interval)

/-- The loop body of `calculateBezierCurveKnots`: evaluate the curve at each
parameter value, record the chord `delta` to the previous point and the
running `integral`. -/
def bezRun (sq : ℚ → ℚ) (cs : List Vertex) : List ℚ → ℚ × ℚ → ℚ → List Knot
  | [], _, _ => []
  | t :: ts, lastP, total =>
      let p := pointAt cs t
      let delta := distQ sq p.1 p.2 lastP.1 lastP.2
      ⟨p.1, p.2, delta, total + delta, 0, none⟩ :: bezRun sq cs ts p (total + delta)

structure GeneralConfig where
  knotDensity : ℚ
  uolToCm : ℚ

structure SRange where
  fromV : ℚ
  toV : ℚ

structure SpeedConfig where
  speedLimit : SRange
  applicationRange : SRange
  transitionRange : SRange

/-- `knots[0].heading = h` (mutation of the first array element). -/
def setHeadHeading (h : Option ℚ) : List Knot → List Knot
  | [] => []
  | k :: ks => { k with heading := h } :: ks

/-- `new UnitConverter(gc.uol, UnitOfLength.Centimeter).fromAtoB(gc.knotDensity) / 200`. -/
def splineInterval (gc : GeneralConfig) : ℚ :=
  UnitConverter.fromAtoB gc.uolToCm gc.knotDensity / 200

/-- `this.first()` — `controls[0]`. -/
def Spline.first (cs : List Vertex) : Vertex := cs.getD 0 ⟨0, 0, none⟩

/-- `this.last()` — `controls[controls.length - 1]`. -/
def Spline.last (cs : List Vertex) : Vertex := cs.getLastD ⟨0, 0, none⟩

/-- `this.calculateBezierCurveKnots(targetInterval, integral)`. -/
def splineBez (sq : ℚ → ℚ) (gc : GeneralConfig) (cs : List Vertex) (integral : ℚ) :
    List Knot :=
  bezRun sq cs (sampleTs (splineInterval gc))
    ((Spline.first cs).x, (Spline.first cs).y) integral

/-- `if (knots.length > 1) knots[0].heading = this.first().heading`. -/
def splineWithHeading (sq : ℚ → ℚ) (gc : GeneralConfig) (cs : List Vertex) (integral : ℚ) :
    List Knot :=
  if 1 < (splineBez sq gc cs integral).length then
    setHeadHeading (Spline.first cs).heading (splineBez sq gc cs integral)
  else splineBez sq gc cs integral

/-- `knots[knots.length - 1]`. -/
def splineLastKnot (sq : ℚ → ℚ) (gc : GeneralConfig) (cs : List Vertex) (integral : ℚ) :
    Knot :=
  (splineWithHeading sq gc cs integral).getLastD junkKnot

/-- `lastKnot.distance(lastControl)`. -/
def splineFinalDist (sq : ℚ → ℚ) (gc : GeneralConfig) (cs : List Vertex) (integral : ℚ) :
    ℚ :=
  distQ sq (splineLastKnot sq gc cs integral).x (splineLastKnot sq gc cs integral).y
    (Spline.last cs).x (Spline.last cs).y

/-- `lastKnot.integral + distance`. -/
def splineIntegralDistance (sq : ℚ → ℚ) (gc : GeneralConfig) (cs : List Vertex)
    (integral : ℚ) : ℚ :=
  (splineLastKnot sq gc cs integral).integral + splineFinalDist sq gc cs integral

/-- `new Knot(lastControl.x, lastControl.y, distance, integralDistance, 0,
this.last().heading)`. -/
def splineFinalKnot (sq : ℚ → ℚ) (gc : GeneralConfig) (cs : List Vertex) (integral : ℚ) :
    Knot :=
  ⟨(Spline.last cs).x, (Spline.last cs).y, splineFinalDist sq gc cs integral,
    splineIntegralDistance sq gc cs integral, 0, (Spline.last cs).heading⟩

/-- `(1 / targetInterval) / ((integralDistance - integral) / gc.knotDensity)`. -/
def splineDeltaRatio (sq : ℚ → ℚ) (gc : GeneralConfig) (cs : List Vertex) (integral : ℚ) :
    ℚ :=
  (1 / splineInterval gc) / ((splineIntegralDistance sq gc cs integral - integral) / gc.knotDensity)

/-- `Spline.calculateKnots(gc, sc, integral)`: Bezier resampling, first-knot
heading, the pinned final knot, and the delta-ratio scaling pass. -/
def Spline.calculateKnots (sq : ℚ → ℚ) (gc : GeneralConfig) (cs : List Vertex)
    (integral : ℚ) : List Knot :=
  (splineWithHeading sq gc cs integral ++ [splineFinalKnot sq gc cs integral]).map
    (fun k => { k with delta := k.delta * splineDeltaRatio sq gc cs integral })

/-- Pass 1 of `Path.calculateKnots`: for each spline take
`[firstKnot, ...knots] = spline.calculateKnots(gc, sc, pathTTD)`, push
`firstKnot` only while `pathTTD === 0`, push the rest, and refresh `pathTTD`
from the last accumulated knot. -/
def pass1 (sq : ℚ → ℚ) (gc : GeneralConfig) :
    List (List Vertex) → List Knot → ℚ → List Knot
  | [], gen1, _ => gen1
  | cs :: rest, gen1, pathTTD =>
      let ks := Spline.calculateKnots sq gc cs pathTTD
      let gen2 := (if pathTTD = 0 then gen1 ++ ks.take 1 else gen1) ++ ks.tail
      pass1 sq gc rest gen2 ((gen2.getLastD junkKnot).integral)

/-- `calculateSpeed(p3)` with the constants the enclosing function computed.
When `transitionRange.from = 0` (resp. `transitionRange.to = 1`) the JS
scale is `Infinity` while the rational quotient is `0`; the corresponding
ramp's guard (`integral < 0·pathTTD`, resp. `integral > pathTTD` for
`integral = t·pathTTD, t < 1`) is false in both semantics, so the scale is
never consumed where the two differ. -/
def calculateSpeed (sc : SpeedConfig) (pathTTD : ℚ) (p3 : Knot) : Knot :=
  let speedDiff := sc.speedLimit.toV - sc.speedLimit.fromV
  let applicationDiff := sc.applicationRange.toV - sc.applicationRange.fromV
  let applicationRatio := speedDiff / applicationDiff
  let accelThreshold := sc.transitionRange.fromV * pathTTD
  let decThreshold := sc.transitionRange.toV * pathTTD
  let accelSpeedScale := speedDiff / sc.transitionRange.fromV
  let decSpeedScale := speedDiff / (1 - sc.transitionRange.toV)
  let s1 :=
    if p3.delta < sc.applicationRange.fromV ∧ p3.delta ≠ 0 then sc.speedLimit.fromV
    else if sc.applicationRange.toV < p3.delta then sc.speedLimit.toV
    else if (speedDiff ≠ 0 ∧ applicationDiff ≠ 0) ∧ p3.delta ≠ 0 then
      sc.speedLimit.fromV + (p3.delta - sc.applicationRange.fromV) * applicationRatio
    else sc.speedLimit.toV
  let s2 :=
    if p3.integral < accelThreshold then
      min s1 (sc.speedLimit.fromV + p3.integral / pathTTD * accelSpeedScale)
    else if decThreshold < p3.integral then
      min s1 (sc.speedLimit.fromV + (1 - p3.integral / pathTTD) * decSpeedScale)
    else s1
  { p3 with speed := s2 }

/-- The bracket-advancing `while (gen1[closestIdx].integral < integral)`
loop, harvesting the last defined heading seen.  The out-of-fuel arm models
the JS `undefined.integral` crash; claim C10 shows it is unreachable under
the loop's invariants. -/
def advanceIdx (g : List Knot) (idx : ℕ) (target : ℚ) (h : Option ℚ) : ℕ × Option ℚ :=
  if hlt : idx < g.length then
    if (g.get ⟨idx, hlt⟩).integral < target then
      advanceIdx g (idx + 1) target (((g.get ⟨idx, hlt⟩).heading).orElse (fun _ => h))
    else (idx, h)
  else (idx, h)
termination_by g.length - idx

/-- The parameter values visited by `for (let t = 0; t < 1; t += interval)`
(count `⌈1 / interval⌉` for positive intervals; a non-positive or infinite
interval visits only `t = 0`). -/
def strictCount (interval : ℚ) : ℕ :=
  if 0 < interval then (⌈1 / interval⌉).toNat else 1

def strictTs (interval : ℚ) : List ℚ :=
  (List.range (strictCount interval)).map (fun (k : ℕ) => (k : ℚ) * interval)

/-- Pass 2 of `Path.calculateKnots`: advance the bracket, linearly
interpolate between the bracketing pass-1 knots, and shape the speed. -/
def pass2 (sc : SpeedConfig) (g : List Knot) (pathTTD : ℚ) :
    List ℚ → ℕ → List Knot
  | [], _ => []
  | t :: ts, idx =>
      let integral := t * pathTTD
      let r := advanceIdx g idx integral none
      let p1 := g.getD (r.1 - 1) junkKnot
      let p2 := g.getD r.1 junkKnot
      let pRatio := (integral - p1.integral) / (p2.integral - p1.integral)
      let p3 : Knot := ⟨p1.x + (p2.x - p1.x) * pRatio, p1.y + (p2.y - p1.y) * pRatio,
        p1.delta + (p2.delta - p1.delta) * pRatio, integral, 0, r.2⟩
      calculateSpeed sc pathTTD p3 :: pass2 sc g pathTTD ts r.1

/-- `Path.calculateKnots(gc, sc)`: pass 1, the short-circuit for fewer than
2 knots, pass 2 at even arc-length spacing, first-knot heading, and the
pinned zero-speed terminal knot. -/
def Path.calculateKnots (sq : ℚ → ℚ) (gc : GeneralConfig) (sc : SpeedConfig)
    (splines : List (List Vertex)) : List Knot :=
  let gen1 := pass1 sq gc splines [] 0
  if gen1.length < 2 then gen1
  else
    let pathTTD := (gen1.getLastD junkKnot).integral
    let targetInterval := 1 / (pathTTD / gc.knotDensity)
    let gen2 := pass2 sc gen1 pathTTD (strictTs targetInterval) 1
    let gen2b := setHeadHeading ((gen1.getD 0 junkKnot).heading) gen2
    let lastControl := Spline.last (splines.getLastD [])
    let finalKnot : Knot := ⟨lastControl.x, lastControl.y, 0, 0, 0, lastControl.heading⟩
    gen2b ++ [finalKnot]

theorem binomial_zero (n : ℕ) : binomial n 0 = 1 := rfl

theorem foldl_mul_cast (l : List ℕ) (c : ℚ) :
    l.foldl (fun (c : ℚ) (i : ℕ) => c * (i : ℚ)) c =
      c * (l.map (fun (i : ℕ) => (i : ℚ))).prod := by
  induction l generalizing c with
  | nil => rw [List.foldl_nil, List.map_nil, List.prod_nil, mul_one]
  | cons a as ih =>
      simp only [List.foldl_cons, List.map_cons, List.prod_cons]
      rw [ih]
      ring

theorem foldl_div_cast (l : List ℕ) (c : ℚ) :
    l.foldl (fun (c : ℚ) (i : ℕ) => c / (i : ℚ)) c =
      c / (l.map (fun (i : ℕ) => (i : ℚ))).prod := by
  induction l generalizing c with
  | nil => rw [List.foldl_nil, List.map_nil, List.prod_nil, div_one]
  | cons a as ih =>
      simp only [List.foldl_cons, List.map_cons, List.prod_cons]
      rw [ih, div_div]

theorem binomial_self (n : ℕ) : binomial n n = 1 := by
  unfold binomial
  have h1 : n - n + 1 = 1 := by omega
  rw [h1, foldl_div_cast, foldl_mul_cast, one_mul]
  apply div_self
  apply List.prod_ne_zero
  intro h0
  obtain ⟨i, hi, hcast⟩ := List.mem_map.mp h0
  have h1i : 1 ≤ i := by
    have := List.mem_range'_1.mp hi
    omega
  have hne : (i : ℚ) ≠ 0 := by
    have : (0 : ℚ) < (i : ℚ) := by exact_mod_cast h1i
    linarith
  exact hne hcast

theorem bernstein_head_at_zero (n : ℕ) : bernstein n 0 0 = 1 := by
  simp [bernstein, binomial_zero]

theorem bernstein_at_zero_pos (n i : ℕ) (hi : 0 < i) : bernstein n i 0 = 0 := by
  have : (0 : ℚ) ^ i = 0 := zero_pow (by omega)
  simp [bernstein, this]

theorem bernstein_at_one_lt (n i : ℕ) (hi : i < n) : bernstein n i 1 = 0 := by
  unfold bernstein
  have h0 : ((1 : ℚ) - 1) ^ (n - i) = 0 := by
    rw [sub_self]
    exact zero_pow (by omega)
  rw [h0, mul_zero]

theorem bernstein_at_one_self (n : ℕ) : bernstein n n 1 = 1 := by
  have h0 : n - n = 0 := by omega
  simp [bernstein, binomial_self, h0]

theorem pointAt_zero (cs : List Vertex) (hne : cs ≠ []) :
    pointAt cs 0 = ((Spline.first cs).x, (Spline.first cs).y) := by
  show (((List.range (cs.length - 1 + 1)).map
      (fun i => (cs.getD i ⟨0, 0, none⟩).x * bernstein (cs.length - 1) i 0)).sum,
    ((List.range (cs.length - 1 + 1)).map
      (fun i => (cs.getD i ⟨0, 0, none⟩).y * bernstein (cs.length - 1) i 0)).sum) =
    ((cs.getD 0 ⟨0, 0, none⟩).x, (cs.getD 0 ⟨0, 0, none⟩).y)
  rw [List.range_succ_eq_map]
  simp only [List.map_cons, List.sum_cons, List.map_map]
  have hz : ∀ c : ℚ × ℚ, True := fun _ => trivial
  have hx : ((List.range (cs.length - 1)).map
      ((fun i => (cs.getD i ⟨0, 0, none⟩).x * bernstein (cs.length - 1) i 0) ∘ Nat.succ)).sum = 0 := by
    apply List.sum_eq_zero
    intro q hq
    obtain ⟨j, _, rfl⟩ := List.mem_map.mp hq
    simp only [Function.comp_apply]
    rw [bernstein_at_zero_pos _ _ (Nat.succ_pos j), mul_zero]
  have hy : ((List.range (cs.length - 1)).map
      ((fun i => (cs.getD i ⟨0, 0, none⟩).y * bernstein (cs.length - 1) i 0) ∘ Nat.succ)).sum = 0 := by
    apply List.sum_eq_zero
    intro q hq
    obtain ⟨j, _, rfl⟩ := List.mem_map.mp hq
    simp only [Function.comp_apply]
    rw [bernstein_at_zero_pos _ _ (Nat.succ_pos j), mul_zero]
  rw [hx, hy, bernstein_head_at_zero]
  simp

theorem getD_last_eq_getLastD {α : Type} (l : List α) (d : α) (h : l ≠ []) :
    l.getD (l.length - 1) d = l.getLastD d := by
  have hlt : l.length - 1 < l.length := by
    cases l with
    | nil => exact absurd rfl h
    | cons a as => simp
  rw [List.getLastD_eq_getLast?, List.getLast?_eq_getLast_of_ne_nil h]
  rw [List.getD_eq_get _ _ hlt]
  rw [List.getLast_eq_get]
  rfl

theorem pointAt_one (cs : List Vertex) (hne : cs ≠ []) :
    pointAt cs 1 = ((Spline.last cs).x, (Spline.last cs).y) := by
  show (((List.range (cs.length - 1 + 1)).map
      (fun i => (cs.getD i ⟨0, 0, none⟩).x * bernstein (cs.length - 1) i 1)).sum,
    ((List.range (cs.length - 1 + 1)).map
      (fun i => (cs.getD i ⟨0, 0, none⟩).y * bernstein (cs.length - 1) i 1)).sum) =
    ((cs.getLastD ⟨0, 0, none⟩).x, (cs.getLastD ⟨0, 0, none⟩).y)
  rw [List.range_succ]
  simp only [List.map_append, List.sum_append, List.map_cons, List.map_nil,
    List.sum_cons, List.sum_nil]
  have hx : ((List.range (cs.length - 1)).map
      (fun i => (cs.getD i ⟨0, 0, none⟩).x * bernstein (cs.length - 1) i 1)).sum = 0 := by
    apply List.sum_eq_zero
    intro q hq
    obtain ⟨j, hj, rfl⟩ := List.mem_map.mp hq
    rw [bernstein_at_one_lt _ _ (List.mem_range.mp hj), mul_zero]
  have hy : ((List.range (cs.length - 1)).map
      (fun i => (cs.getD i ⟨0, 0, none⟩).y * bernstein (cs.length - 1) i 1)).sum = 0 := by
    apply List.sum_eq_zero
    intro q hq
    obtain ⟨j, hj, rfl⟩ := List.mem_map.mp hq
    rw [bernstein_at_one_lt _ _ (List.mem_range.mp hj), mul_zero]
  rw [hx, hy, bernstein_at_one_self]
  rw [getD_last_eq_getLastD _ _ hne]
  simp

theorem binomial_one_one : binomial 1 1 = 1 := binomial_self 1

theorem binomial_three_one : binomial 3 1 = 3 := by
  norm_num [binomial, List.range']

theorem binomial_three_two : binomial 3 2 = 3 := by
  norm_num [binomial, List.range']

/-- C7: for segments with 2 or 4 control points, the Bernstein-basis
evaluation of `calculateBezierCurveKnots` at parameter 0 yields the first
control's coordinates and at parameter 1 the last control's coordinates,
exactly over the rationals (hence within the 3-decimal tolerance), and the
iterative product/quotient `binomial` routine agrees with the binomial
coefficient for the degrees used (1 and 3). -/
theorem bezier_endpoint_evaluation (cs : List Vertex)
    (h : cs.length = 2 ∨ cs.length = 4) :
    pointAt cs 0 = ((Spline.first cs).x, (Spline.first cs).y) ∧
    pointAt cs 1 = ((Spline.last cs).x, (Spline.last cs).y) ∧
    binomial 1 0 = (Nat.choose 1 0 : ℚ) ∧ binomial 1 1 = (Nat.choose 1 1 : ℚ) ∧
    binomial 3 0 = (Nat.choose 3 0 : ℚ) ∧ binomial 3 1 = (Nat.choose 3 1 : ℚ) ∧
    binomial 3 2 = (Nat.choose 3 2 : ℚ) ∧ binomial 3 3 = (Nat.choose 3 3 : ℚ) := by
  have hne : cs ≠ [] := by
    rcases h with h | h <;> (intro he; rw [he] at h; simp at h)
  refine ⟨pointAt_zero cs hne, pointAt_one cs hne, ?_, ?_, ?_, ?_, ?_, ?_⟩
  · rw [binomial_zero]; norm_num
  · rw [binomial_one_one]; norm_num
  · rw [binomial_zero]; norm_num
  · rw [binomial_three_one]; norm_num
  · rw [binomial_three_two]; norm_num
  · rw [binomial_self]; norm_num

/-- Witness for C7 at a concrete 2-control segment. -/
theorem bezier_endpoint_evaluation_witness :
    pointAt [⟨0, 0, some 0⟩, ⟨2, 3, some 90⟩] 0 = (0, 0) ∧
    pointAt [⟨0, 0, some 0⟩, ⟨2, 3, some 90⟩] 1 = (2, 3) := by
  have h := bezier_endpoint_evaluation [⟨0, 0, some 0⟩, ⟨2, 3, some 90⟩] (Or.inl rfl)
  refine ⟨?_, ?_⟩
  · have := h.1
    simpa [Spline.first] using this
  · have := h.2.1
    simpa [Spline.last] using this

/-- The Bernstein evaluation of a 2-control segment is the line
interpolation. -/
theorem pointAt_pair (a b : Vertex) (t : ℚ) :
    pointAt [a, b] t = (a.x * (1 - t) + b.x * t, a.y * (1 - t) + b.y * t) := by
  show (((List.range 2).map
      (fun i => (([a, b].getD i ⟨0, 0, none⟩)).x * bernstein 1 i t)).sum,
    ((List.range 2).map
      (fun i => (([a, b].getD i ⟨0, 0, none⟩)).y * bernstein 1 i t)).sum) = _
  have hr : List.range 2 = [0, 1] := rfl
  rw [hr]
  simp only [List.map_cons, List.map_nil, List.sum_cons, List.sum_nil]
  unfold bernstein
  rw [binomial_zero, binomial_one_one]
  simp only [List.getD]
  norm_num

theorem advanceIdx_bounds (g : List Knot) (target : ℚ)
    (hlast : target ≤ (g.getLastD junkKnot).integral) (hg : g ≠ []) :
    ∀ (fuel idx : ℕ) (h0 : Option ℚ), g.length - idx ≤ fuel → idx ≤ g.length - 1 →
      idx ≤ (advanceIdx g idx target h0).1 ∧
      (advanceIdx g idx target h0).1 ≤ g.length - 1 := by
  intro fuel
  induction fuel with
  | zero =>
      intro idx h0 hf hidx
      have hlen : 0 < g.length := List.length_pos.mpr hg
      omega
  | succ n ih =>
      intro idx h0 hf hidx
      rw [advanceIdx]
      by_cases hlt : idx < g.length
      · rw [dif_pos hlt]
        by_cases hint : (g.get ⟨idx, hlt⟩).integral < target
        · rw [if_pos hint]
          have hidx2 : idx < g.length - 1 := by
            rcases Nat.lt_or_ge idx (g.length - 1) with h | h
            · exact h
            · exfalso
              have heq : idx = g.length - 1 := by omega
              have hgl : g.get ⟨idx, hlt⟩ = g.getLastD junkKnot := by
                rw [← getD_last_eq_getLastD g junkKnot hg, ← heq,
                  List.getD_eq_get _ _ hlt]
              rw [hgl] at hint
              linarith
          have hrec := ih (idx + 1) (((g.get ⟨idx, hlt⟩).heading).orElse (fun _ => h0))
            (by omega) (by omega)
          exact ⟨Nat.le_trans (Nat.le_succ idx) hrec.1, hrec.2⟩
        · rw [if_neg hint]
          exact ⟨Nat.le_refl idx, hidx⟩
      · rw [dif_neg hlt]
        exact ⟨Nat.le_refl idx, hidx⟩

/-- C10: in pass 2, whenever the pass-1 array has at least 2 knots and its
last knot's integral equals the (nonnegative) total travel distance, every
loop iteration with `0 ≤ t < 1` leaves the bracket-advancing while loop at
an index that is at most the last valid index and never past it, so the
accesses `gen1[closestIdx]` and `gen1[closestIdx - 1]` are in bounds. -/
theorem pass2_bracket_in_bounds (g : List Knot) (idx : ℕ) (t pathTTD : ℚ)
    (h0 : Option ℚ)
    (hlen : 2 ≤ g.length)
    (hlast : (g.getLastD junkKnot).integral = pathTTD)
    (ht0 : 0 ≤ t) (ht1 : t < 1) (httd : 0 ≤ pathTTD)
    (hidx : idx ≤ g.length - 1) :
    idx ≤ (advanceIdx g idx (t * pathTTD) h0).1 ∧
    (advanceIdx g idx (t * pathTTD) h0).1 ≤ g.length - 1 ∧
    (advanceIdx g idx (t * pathTTD) h0).1 < g.length ∧
    (advanceIdx g idx (t * pathTTD) h0).1 - 1 < g.length := by
  have hg : g ≠ [] := by
    intro he
    rw [he] at hlen
    simp at hlen
  have htar : t * pathTTD ≤ (g.getLastD junkKnot).integral := by
    rw [hlast]
    nlinarith [mul_nonneg (by linarith : (0 : ℚ) ≤ 1 - t) httd]
  obtain ⟨h1, h2⟩ := advanceIdx_bounds g (t * pathTTD) htar hg g.length idx h0
    (by omega) hidx
  exact ⟨h1, h2, by omega, by omega⟩

theorem getLastD_default_irrel {α : Type} (l : List α) (d1 d2 : α) (h : l ≠ []) :
    l.getLastD d1 = l.getLastD d2 := by
  rw [List.getLastD_eq_getLast?, List.getLastD_eq_getLast?,
    List.getLast?_eq_getLast_of_ne_nil h]
  rfl

theorem getLastD_concat {α : Type} (l : List α) (a d : α) :
    (l ++ [a]).getLastD d = a := by
  rw [List.getLastD_eq_getLast?, getLast?_concat_eq]
  rfl

theorem take_one_append_tail {α : Type} (l : List α) : l.take 1 ++ l.tail = l := by
  cases l <;> simp

theorem distQ_nonneg {sq : ℚ → ℚ} (hsq : SqrtLike sq) (x1 y1 x2 y2 : ℚ) :
    0 ≤ distQ sq x1 y1 x2 y2 := hsq.nonneg _

theorem distQ_pos {sq : ℚ → ℚ} (hsq : SqrtLike sq) {x1 y1 x2 y2 : ℚ}
    (h : (x1, y1) ≠ (x2, y2)) : 0 < distQ sq x1 y1 x2 y2 := by
  unfold distQ
  apply hsq.pos
  rcases eq_or_ne x1 x2 with hx | hx
  · rcases eq_or_ne y1 y2 with hy | hy
    · exact absurd (by rw [hx, hy]) h
    · have h2 : 0 < (y1 - y2) ^ 2 :=
        lt_of_le_of_ne (sq_nonneg _) (Ne.symm (pow_ne_zero 2 (sub_ne_zero.mpr hy)))
      have h3 := sq_nonneg (x1 - x2)
      linarith
  · have h2 : 0 < (x1 - x2) ^ 2 :=
      lt_of_le_of_ne (sq_nonneg _) (Ne.symm (pow_ne_zero 2 (sub_ne_zero.mpr hx)))
    have h3 := sq_nonneg (y1 - y2)
    linarith

theorem bezRun_mem_coords (sq : ℚ → ℚ) (cs : List Vertex) :
    ∀ (ts : List ℚ) (p : ℚ × ℚ) (tot : ℚ), ∀ k ∈ bezRun sq cs ts p tot,
      ∃ t ∈ ts, (k.x, k.y) = pointAt cs t := by
  intro ts
  induction ts with
  | nil => intro p tot k hk; exact absurd hk (by simp [bezRun])
  | cons t ts ih =>
      intro p tot k hk
      rw [bezRun] at hk
      rcases List.mem_cons.mp hk with rfl | hk2
      · exact ⟨t, List.mem_cons_self _ _, rfl⟩
      · obtain ⟨u, hu, he⟩ := ih _ _ k hk2
        exact ⟨u, List.mem_cons_of_mem _ hu, he⟩

theorem bezRun_ne_nil (sq : ℚ → ℚ) (cs : List Vertex) (ts : List ℚ) (p : ℚ × ℚ)
    (tot : ℚ) (h : ts ≠ []) : bezRun sq cs ts p tot ≠ [] := by
  cases ts with
  | nil => exact absurd rfl h
  | cons t ts => rw [bezRun]; simp

theorem bezRun_getLast {sq : ℚ → ℚ} (hsq : SqrtLike sq) (cs : List Vertex) :
    ∀ (ts : List ℚ) (p : ℚ × ℚ) (tot : ℚ), ts ≠ [] →
      ((bezRun sq cs ts p tot).getLastD junkKnot).x = (pointAt cs (ts.getLastD 0)).1 ∧
      ((bezRun sq cs ts p tot).getLastD junkKnot).y = (pointAt cs (ts.getLastD 0)).2 ∧
      tot ≤ ((bezRun sq cs ts p tot).getLastD junkKnot).integral := by
  intro ts
  induction ts with
  | nil => intro p tot h; exact absurd rfl h
  | cons t ts ih =>
      intro p tot _
      cases hts : ts with
      | nil =>
          subst hts
          refine ⟨by simp [bezRun], by simp [bezRun], ?_⟩
          simp only [bezRun, List.getLastD_nil, List.getLastD_cons]
          have := distQ_nonneg hsq (pointAt cs t).1 (pointAt cs t).2 p.1 p.2
          linarith
      | cons u us =>
          rw [← hts]
          have hne2 : ts ≠ [] := by rw [hts]; simp
          have hbne : bezRun sq cs ts (pointAt cs t)
              (tot + distQ sq (pointAt cs t).1 (pointAt cs t).2 p.1 p.2) ≠ [] :=
            bezRun_ne_nil sq cs ts _ _ hne2
          obtain ⟨h1, h2, h3⟩ := ih (pointAt cs t)
            (tot + distQ sq (pointAt cs t).1 (pointAt cs t).2 p.1 p.2) hne2
          simp only [bezRun, List.getLastD_cons]
          rw [getLastD_default_irrel _ _ junkKnot hbne,
            getLastD_default_irrel _ _ (0 : ℚ) hne2]
          have := distQ_nonneg hsq (pointAt cs t).1 (pointAt cs t).2 p.1 p.2
          exact ⟨h1, h2, by linarith⟩

def c10g : List Knot := [⟨0, 0, 0, 0, 0, none⟩, ⟨1, 0, 1, 1, 0, some 0⟩]

/-- Witness for C10 at a concrete two-knot pass-1 array. -/
theorem pass2_bracket_in_bounds_witness :
    (advanceIdx c10g 1 ((1/2) * 1) none).1 ≤ c10g.length - 1 := by
  have h := pass2_bracket_in_bounds c10g 1 (1/2) 1 none (by simp [c10g])
    (by simp [c10g, List.getLastD]) (by norm_num) (by norm_num) (by norm_num)
    (by simp [c10g])
  exact h.2.1

/-- The per-element coordinate test used to count knots at a control point. -/
def atCoord (x y : ℚ) (k : Knot) : Bool := decide (k.x = x ∧ k.y = y)

theorem countP_setHeadHeading (x y : ℚ) (h : Option ℚ) (l : List Knot) :
    (setHeadHeading h l).countP (atCoord x y) = l.countP (atCoord x y) := by
  cases l with
  | nil => rfl
  | cons k ks => rfl

theorem tail_setHeadHeading (h : Option ℚ) (l : List Knot) :
    (setHeadHeading h l).tail = l.tail := by
  cases l <;> rfl

theorem setHeadHeading_ne_nil (h : Option ℚ) {l : List Knot} (hl : l ≠ []) :
    setHeadHeading h l ≠ [] := by
  cases l with
  | nil => exact absurd rfl hl
  | cons k ks => simp [setHeadHeading]

theorem bezRun_countP (sq : ℚ → ℚ) (cs : List Vertex) (x y : ℚ) :
    ∀ (ts : List ℚ) (p : ℚ × ℚ) (tot : ℚ),
      (bezRun sq cs ts p tot).countP (atCoord x y) =
        ts.countP (fun t => decide ((pointAt cs t).1 = x ∧ (pointAt cs t).2 = y)) := by
  intro ts
  induction ts with
  | nil => intro p tot; rfl
  | cons t ts ih =>
      intro p tot
      simp only [bezRun, List.countP_cons, ih]
      rfl

theorem bezRun_cons (sq : ℚ → ℚ) (cs : List Vertex) (t : ℚ) (ts : List ℚ) (p : ℚ × ℚ)
    (tot : ℚ) :
    bezRun sq cs (t :: ts) p tot =
      ⟨(pointAt cs t).1, (pointAt cs t).2,
        distQ sq (pointAt cs t).1 (pointAt cs t).2 p.1 p.2,
        tot + distQ sq (pointAt cs t).1 (pointAt cs t).2 p.1 p.2, 0, none⟩ ::
      bezRun sq cs ts (pointAt cs t)
        (tot + distQ sq (pointAt cs t).1 (pointAt cs t).2 p.1 p.2) := rfl

theorem sampleCount_succ (interval : ℚ) :
    sampleCount interval = (sampleCount interval - 1) + 1 := by
  unfold sampleCount
  split <;> omega

theorem sampleTs_ne_nil (interval : ℚ) : sampleTs interval ≠ [] := by
  rw [sampleTs, sampleCount_succ interval, List.range_succ_eq_map]
  simp

theorem sampleTs_eq_cons (interval : ℚ) :
    sampleTs interval = 0 :: (List.range (sampleCount interval - 1)).map
      (fun (j : ℕ) => ((j : ℚ) + 1) * interval) := by
  rw [sampleTs, sampleCount_succ interval, List.range_succ_eq_map, List.map_cons,
    List.map_map]
  norm_num [Function.comp, Nat.succ_eq_add_one]

theorem sampleTs_mem {interval t : ℚ} (h : t ∈ sampleTs interval) :
    ∃ k : ℕ, t = (k : ℚ) * interval := by
  rw [sampleTs] at h
  obtain ⟨k, _, hk⟩ := List.mem_map.mp h
  exact ⟨k, hk.symm⟩

theorem getLastD_mem {α : Type} {l : List α} (d : α) (h : l ≠ []) : l.getLastD d ∈ l := by
  rw [List.getLastD_eq_getLast?, List.getLast?_eq_getLast_of_ne_nil h]
  exact List.getLast_mem h

theorem pointAt_pair_hit_last {a b : Vertex} {t : ℚ} (hab : (a.x, a.y) ≠ (b.x, b.y))
    (hx : (pointAt [a, b] t).1 = b.x) (hy : (pointAt [a, b] t).2 = b.y) : t = 1 := by
  have hx' : a.x * (1 - t) + b.x * t = b.x := by
    have h := hx; rw [pointAt_pair] at h; exact h
  have hy' : a.y * (1 - t) + b.y * t = b.y := by
    have h := hy; rw [pointAt_pair] at h; exact h
  have hxz : (a.x - b.x) * (1 - t) = 0 := by linear_combination hx'
  have hyz : (a.y - b.y) * (1 - t) = 0 := by linear_combination hy'
  rcases mul_eq_zero.mp hxz with h1 | h1
  · rcases mul_eq_zero.mp hyz with h2 | h2
    · exact absurd (by rw [sub_eq_zero.mp h1, sub_eq_zero.mp h2]) hab
    · linarith
  · linarith

theorem pointAt_pair_hit_first {a b : Vertex} {t : ℚ} (hab : (a.x, a.y) ≠ (b.x, b.y))
    (hx : (pointAt [a, b] t).1 = a.x) (hy : (pointAt [a, b] t).2 = a.y) : t = 0 := by
  have hx' : a.x * (1 - t) + b.x * t = a.x := by
    have h := hx; rw [pointAt_pair] at h; exact h
  have hy' : a.y * (1 - t) + b.y * t = a.y := by
    have h := hy; rw [pointAt_pair] at h; exact h
  have hxz : (b.x - a.x) * t = 0 := by linear_combination hx'
  have hyz : (b.y - a.y) * t = 0 := by linear_combination hy'
  rcases mul_eq_zero.mp hxz with h1 | h1
  · rcases mul_eq_zero.mp hyz with h2 | h2
    · exact absurd (by rw [(sub_eq_zero.mp h1).symm, (sub_eq_zero.mp h2).symm]) hab
    · exact h2
  · exact h1

theorem setHeadHeading_getLastD (h : Option ℚ) (k : Knot) (ks : List Knot) (d : Knot)
    (hks : ks ≠ []) :
    (setHeadHeading h (k :: ks)).getLastD d = (k :: ks).getLastD d := by
  show (({ k with heading := h } : Knot) :: ks).getLastD d = (k :: ks).getLastD d
  rw [List.getLastD_cons, List.getLastD_cons]
  exact getLastD_default_irrel ks _ k hks

theorem splineBez_ne_nil (sq : ℚ → ℚ) (gc : GeneralConfig) (cs : List Vertex)
    (integral : ℚ) : splineBez sq gc cs integral ≠ [] :=
  bezRun_ne_nil sq cs _ _ _ (sampleTs_ne_nil _)

theorem splineWithHeading_ne_nil (sq : ℚ → ℚ) (gc : GeneralConfig) (cs : List Vertex)
    (integral : ℚ) : splineWithHeading sq gc cs integral ≠ [] := by
  rw [splineWithHeading]
  split
  · exact setHeadHeading_ne_nil _ (splineBez_ne_nil sq gc cs integral)
  · exact splineBez_ne_nil sq gc cs integral

theorem splineWithHeading_tail (sq : ℚ → ℚ) (gc : GeneralConfig) (cs : List Vertex)
    (integral : ℚ) :
    (splineWithHeading sq gc cs integral).tail = (splineBez sq gc cs integral).tail := by
  rw [splineWithHeading]
  split
  · exact tail_setHeadHeading _ _
  · rfl

theorem splineLastKnot_eq_bez (sq : ℚ → ℚ) (gc : GeneralConfig) (cs : List Vertex)
    (integral : ℚ) :
    splineLastKnot sq gc cs integral = (splineBez sq gc cs integral).getLastD junkKnot := by
  rw [splineLastKnot, splineWithHeading]
  split
  · next hlen =>
      cases hb : splineBez sq gc cs integral with
      | nil => rw [hb] at hlen; simp at hlen
      | cons k ks =>
          rw [hb] at hlen
          have hks : ks ≠ [] := by
            intro hk
            rw [hk] at hlen
            simp at hlen
          exact setHeadHeading_getLastD _ k ks junkKnot hks
  · rfl

theorem countP_splineWithHeading (x y : ℚ) (sq : ℚ → ℚ) (gc : GeneralConfig)
    (cs : List Vertex) (integral : ℚ) :
    (splineWithHeading sq gc cs integral).countP (atCoord x y) =
      (splineBez sq gc cs integral).countP (atCoord x y) := by
  rw [splineWithHeading]
  split
  · exact countP_setHeadHeading x y _ _
  · rfl

theorem tail_append_of_ne_nil {α : Type} (l l2 : List α) (h : l ≠ []) :
    (l ++ l2).tail = l.tail ++ l2 := by
  cases l with
  | nil => exact absurd rfl h
  | cons a as => rfl

theorem pass1_two (sq : ℚ → ℚ) (gc : GeneralConfig) (s1 s2 : List Vertex)
    (h2 : ((Spline.calculateKnots sq gc s1 0).getLastD junkKnot).integral ≠ 0) :
    pass1 sq gc [s1, s2] [] 0 =
      Spline.calculateKnots sq gc s1 0 ++
        (Spline.calculateKnots sq gc s2
          (((Spline.calculateKnots sq gc s1 0).getLastD junkKnot).integral)).tail := by
  simp only [pass1, List.nil_append, eq_self_iff_true, if_true, take_one_append_tail,
    h2, if_false]

/-- C4: the claimed deduplication fails when the fine-sampling loop lands
exactly on `t = 1`.  With knot density 50 (interval 1/4) and the two unit
line segments `(0,0)→(1,0)` and `(1,0)→(2,0)`, the boundary point `(1,0)`
appears twice in the pass-1 output: the first segment's own resample emits
it at `t = 1` and the pinned final knot repeats it, while the second
segment's copy is dropped as intended. -/
theorem pass1_boundary_knot_counterexample :
    (pass1 sqStep ⟨50, 1⟩
        [[⟨0, 0, some 0⟩, ⟨1, 0, some 0⟩], [⟨1, 0, some 0⟩, ⟨2, 0, some 0⟩]] [] 0).countP
      (atCoord 1 0) = 2 := by
  have hct : sampleCount (splineInterval ⟨50, 1⟩) = 5 := by
    norm_num [sampleCount, splineInterval, UnitConverter.fromAtoB, Int.toNat]
  have hr5 : List.range 5 = [0, 1, 2, 3, 4] := rfl
  have hts : sampleTs (splineInterval ⟨50, 1⟩) = [0, 1/4, 1/2, 3/4, 1] := by
    rw [sampleTs, hct, hr5]
    norm_num [splineInterval, UnitConverter.fromAtoB]
  have hbez1 : splineBez sqStep ⟨50, 1⟩ [⟨0, 0, some 0⟩, ⟨1, 0, some 0⟩] 0 =
      [⟨0, 0, 0, 0, 0, none⟩, ⟨1/4, 0, 1, 1, 0, none⟩, ⟨1/2, 0, 1, 2, 0, none⟩,
       ⟨3/4, 0, 1, 3, 0, none⟩, ⟨1, 0, 1, 4, 0, none⟩] := by
    rw [splineBez, hts]
    norm_num [bezRun, pointAt_pair, distQ, sqStep, Spline.first]
  have hwh1 : splineWithHeading sqStep ⟨50, 1⟩ [⟨0, 0, some 0⟩, ⟨1, 0, some 0⟩] 0 =
      [⟨0, 0, 0, 0, 0, some 0⟩, ⟨1/4, 0, 1, 1, 0, none⟩, ⟨1/2, 0, 1, 2, 0, none⟩,
       ⟨3/4, 0, 1, 3, 0, none⟩, ⟨1, 0, 1, 4, 0, none⟩] := by
    rw [splineWithHeading, hbez1]
    norm_num [setHeadHeading, Spline.first]
  have hlk1 : splineLastKnot sqStep ⟨50, 1⟩ [⟨0, 0, some 0⟩, ⟨1, 0, some 0⟩] 0 =
      ⟨1, 0, 1, 4, 0, none⟩ := by
    rw [splineLastKnot, hwh1]
    rfl
  have hfd1 : splineFinalDist sqStep ⟨50, 1⟩ [⟨0, 0, some 0⟩, ⟨1, 0, some 0⟩] 0 = 0 := by
    rw [splineFinalDist, hlk1]
    norm_num [distQ, sqStep, Spline.last]
  have hid1 : splineIntegralDistance sqStep ⟨50, 1⟩ [⟨0, 0, some 0⟩, ⟨1, 0, some 0⟩] 0 =
      4 := by
    rw [splineIntegralDistance, hlk1, hfd1]
    norm_num
  have hratio1 : splineDeltaRatio sqStep ⟨50, 1⟩ [⟨0, 0, some 0⟩, ⟨1, 0, some 0⟩] 0 =
      50 := by
    rw [splineDeltaRatio, hid1]
    norm_num [splineInterval, UnitConverter.fromAtoB]
  have hfk1 : splineFinalKnot sqStep ⟨50, 1⟩ [⟨0, 0, some 0⟩, ⟨1, 0, some 0⟩] 0 =
      ⟨1, 0, 0, 4, 0, some 0⟩ := by
    rw [splineFinalKnot, hfd1, hid1]
    rfl
  have hks1 : Spline.calculateKnots sqStep ⟨50, 1⟩ [⟨0, 0, some 0⟩, ⟨1, 0, some 0⟩] 0 =
      [⟨0, 0, 0, 0, 0, some 0⟩, ⟨1/4, 0, 50, 1, 0, none⟩, ⟨1/2, 0, 50, 2, 0, none⟩,
       ⟨3/4, 0, 50, 3, 0, none⟩, ⟨1, 0, 50, 4, 0, none⟩, ⟨1, 0, 0, 4, 0, some 0⟩] := by
    rw [Spline.calculateKnots, hwh1, hfk1, hratio1]
    norm_num
  have hbez2 : splineBez sqStep ⟨50, 1⟩ [⟨1, 0, some 0⟩, ⟨2, 0, some 0⟩] 4 =
      [⟨1, 0, 0, 4, 0, none⟩, ⟨5/4, 0, 1, 5, 0, none⟩, ⟨3/2, 0, 1, 6, 0, none⟩,
       ⟨7/4, 0, 1, 7, 0, none⟩, ⟨2, 0, 1, 8, 0, none⟩] := by
    rw [splineBez, hts]
    norm_num [bezRun, pointAt_pair, distQ, sqStep, Spline.first]
  have hwh2 : splineWithHeading sqStep ⟨50, 1⟩ [⟨1, 0, some 0⟩, ⟨2, 0, some 0⟩] 4 =
      [⟨1, 0, 0, 4, 0, some 0⟩, ⟨5/4, 0, 1, 5, 0, none⟩, ⟨3/2, 0, 1, 6, 0, none⟩,
       ⟨7/4, 0, 1, 7, 0, none⟩, ⟨2, 0, 1, 8, 0, none⟩] := by
    rw [splineWithHeading, hbez2]
    norm_num [setHeadHeading, Spline.first]
  have hlk2 : splineLastKnot sqStep ⟨50, 1⟩ [⟨1, 0, some 0⟩, ⟨2, 0, some 0⟩] 4 =
      ⟨2, 0, 1, 8, 0, none⟩ := by
    rw [splineLastKnot, hwh2]
    rfl
  have hfd2 : splineFinalDist sqStep ⟨50, 1⟩ [⟨1, 0, some 0⟩, ⟨2, 0, some 0⟩] 4 = 0 := by
    rw [splineFinalDist, hlk2]
    norm_num [distQ, sqStep, Spline.last]
  have hid2 : splineIntegralDistance sqStep ⟨50, 1⟩ [⟨1, 0, some 0⟩, ⟨2, 0, some 0⟩] 4 =
      8 := by
    rw [splineIntegralDistance, hlk2, hfd2]
    norm_num
  have hratio2 : splineDeltaRatio sqStep ⟨50, 1⟩ [⟨1, 0, some 0⟩, ⟨2, 0, some 0⟩] 4 =
      50 := by
    rw [splineDeltaRatio, hid2]
    norm_num [splineInterval, UnitConverter.fromAtoB]
  have hfk2 : splineFinalKnot sqStep ⟨50, 1⟩ [⟨1, 0, some 0⟩, ⟨2, 0, some 0⟩] 4 =
      ⟨2, 0, 0, 8, 0, some 0⟩ := by
    rw [splineFinalKnot, hfd2, hid2]
    rfl
  have hks2 : Spline.calculateKnots sqStep ⟨50, 1⟩ [⟨1, 0, some 0⟩, ⟨2, 0, some 0⟩] 4 =
      [⟨1, 0, 0, 4, 0, some 0⟩, ⟨5/4, 0, 50, 5, 0, none⟩, ⟨3/2, 0, 50, 6, 0, none⟩,
       ⟨7/4, 0, 50, 7, 0, none⟩, ⟨2, 0, 50, 8, 0, none⟩, ⟨2, 0, 0, 8, 0, some 0⟩] := by
    rw [Spline.calculateKnots, hwh2, hfk2, hratio2]
    norm_num
  have hint4 : ((Spline.calculateKnots sqStep ⟨50, 1⟩
      [⟨0, 0, some 0⟩, ⟨1, 0, some 0⟩] 0).getLastD junkKnot).integral = 4 := by
    rw [hks1]
    rfl
  have hne0 : ((Spline.calculateKnots sqStep ⟨50, 1⟩
      [⟨0, 0, some 0⟩, ⟨1, 0, some 0⟩] 0).getLastD junkKnot).integral ≠ 0 := by
    rw [hint4]
    norm_num
  rw [pass1_two sqStep ⟨50, 1⟩ [⟨0, 0, some 0⟩, ⟨1, 0, some 0⟩]
    [⟨1, 0, some 0⟩, ⟨2, 0, some 0⟩] hne0, hint4, hks2, hks1]
  norm_num [atCoord, List.countP_append, List.countP_cons, List.countP_nil]

/-- C4 (amended): for a path of two line segments `A→B`, `B→C` with `A ≠ B`
and `B ≠ C`, a positive sampling interval, and the parameter loop never
landing exactly on `t = 1` (no `k · interval = 1`), pass 1 emits the
boundary knot at `B` exactly once: the first segment's pinned final knot
provides it, the first segment's resample misses it, and the second
segment's own copy at `t = 0` is dropped together with the segment's first
knot. -/
theorem pass1_boundary_knot_amended (sq : ℚ → ℚ) (hsq : SqrtLike sq)
    (gc : GeneralConfig) (A B C : Vertex)
    (hAB : (A.x, A.y) ≠ (B.x, B.y)) (hBC : (B.x, B.y) ≠ (C.x, C.y))
    (hiv : 0 < splineInterval gc)
    (hone : ∀ k : ℕ, (k : ℚ) * splineInterval gc ≠ 1) :
    (pass1 sq gc [[A, B], [B, C]] [] 0).countP (atCoord B.x B.y) = 1 := by
  have hts1ne := sampleTs_ne_nil (splineInterval gc)
  obtain ⟨hx, hy, hint⟩ := bezRun_getLast hsq [A, B] (sampleTs (splineInterval gc))
    ((Spline.first [A, B]).x, (Spline.first [A, B]).y) 0 hts1ne
  have hlk := splineLastKnot_eq_bez sq gc [A, B] 0
  have hlkx : (splineLastKnot sq gc [A, B] 0).x =
      (pointAt [A, B] ((sampleTs (splineInterval gc)).getLastD 0)).1 := by
    rw [hlk]; exact hx
  have hlky : (splineLastKnot sq gc [A, B] 0).y =
      (pointAt [A, B] ((sampleTs (splineInterval gc)).getLastD 0)).2 := by
    rw [hlk]; exact hy
  have hlkint : (0 : ℚ) ≤ (splineLastKnot sq gc [A, B] 0).integral := by
    rw [hlk]; exact hint
  obtain ⟨k0, hk0⟩ := sampleTs_mem (getLastD_mem 0 hts1ne)
  have hne : ((splineLastKnot sq gc [A, B] 0).x, (splineLastKnot sq gc [A, B] 0).y) ≠
      (B.x, B.y) := by
    intro hco
    rw [Prod.mk.injEq] at hco
    have h1 : (pointAt [A, B] ((sampleTs (splineInterval gc)).getLastD 0)).1 = B.x := by
      rw [← hlkx]; exact hco.1
    have h2 : (pointAt [A, B] ((sampleTs (splineInterval gc)).getLastD 0)).2 = B.y := by
      rw [← hlky]; exact hco.2
    have hone' := pointAt_pair_hit_last hAB h1 h2
    exact hone k0 (by rw [← hk0]; exact hone')
  have hfd : 0 < splineFinalDist sq gc [A, B] 0 := by
    have hrw : splineFinalDist sq gc [A, B] 0 =
        distQ sq (splineLastKnot sq gc [A, B] 0).x
          (splineLastKnot sq gc [A, B] 0).y B.x B.y := rfl
    rw [hrw]
    exact distQ_pos hsq hne
  have hpos : 0 < splineIntegralDistance sq gc [A, B] 0 := by
    have hrw : splineIntegralDistance sq gc [A, B] 0 =
        (splineLastKnot sq gc [A, B] 0).integral + splineFinalDist sq gc [A, B] 0 := rfl
    rw [hrw]
    linarith
  have hlastks1 : ((Spline.calculateKnots sq gc [A, B] 0).getLastD junkKnot).integral =
      splineIntegralDistance sq gc [A, B] 0 := by
    rw [Spline.calculateKnots, List.map_append, List.map_cons, List.map_nil,
      getLastD_concat]
    rfl
  have hne0 : ((Spline.calculateKnots sq gc [A, B] 0).getLastD junkKnot).integral ≠ 0 := by
    rw [hlastks1]
    exact ne_of_gt hpos
  have hc1 : (Spline.calculateKnots sq gc [A, B] 0).countP (atCoord B.x B.y) = 1 := by
    have hcomp1 : (atCoord B.x B.y ∘
        fun k => { k with delta := k.delta * splineDeltaRatio sq gc [A, B] 0 }) =
          atCoord B.x B.y := rfl
    rw [Spline.calculateKnots, List.countP_map, hcomp1, List.countP_append,
      countP_splineWithHeading]
    have hb0 : (splineBez sq gc [A, B] 0).countP (atCoord B.x B.y) = 0 := by
      rw [splineBez, bezRun_countP, List.countP_eq_zero]
      intro t ht hhit
      obtain ⟨k, hk⟩ := sampleTs_mem ht
      have hhit' : (pointAt [A, B] t).1 = B.x ∧ (pointAt [A, B] t).2 = B.y :=
        of_decide_eq_true hhit
      have h1 := pointAt_pair_hit_last hAB hhit'.1 hhit'.2
      exact hone k (by rw [← hk]; exact h1)
    have hfinal1 : atCoord B.x B.y (splineFinalKnot sq gc [A, B] 0) = true := by
      show decide (B.x = B.x ∧ B.y = B.y) = true
      simp
    rw [hb0, List.countP_cons, List.countP_nil, hfinal1]
    norm_num
  have hc2 : ∀ T : ℚ, (Spline.calculateKnots sq gc [B, C] T).tail.countP
      (atCoord B.x B.y) = 0 := by
    intro T
    have hcomp2 : (atCoord B.x B.y ∘
        fun k => { k with delta := k.delta * splineDeltaRatio sq gc [B, C] T }) =
          atCoord B.x B.y := rfl
    rw [Spline.calculateKnots, ← List.map_tail, List.countP_map, hcomp2,
      tail_append_of_ne_nil _ _ (splineWithHeading_ne_nil sq gc [B, C] T),
      List.countP_append, splineWithHeading_tail]
    have hb0 : (splineBez sq gc [B, C] T).tail.countP (atCoord B.x B.y) = 0 := by
      rw [splineBez, sampleTs_eq_cons, bezRun_cons, List.tail_cons, bezRun_countP,
        List.countP_eq_zero]
      intro t ht hhit
      obtain ⟨j, _, hj⟩ := List.mem_map.mp ht
      have hj0 : (0 : ℚ) ≤ (j : ℚ) := Nat.cast_nonneg j
      have htpos : 0 < t := by
        rw [← hj]
        have : (0 : ℚ) < (j : ℚ) + 1 := by linarith
        exact mul_pos this hiv
      have hhit' : (pointAt [B, C] t).1 = B.x ∧ (pointAt [B, C] t).2 = B.y :=
        of_decide_eq_true hhit
      have ht0 := pointAt_pair_hit_first hBC hhit'.1 hhit'.2
      linarith
    have hfinal2 : atCoord B.x B.y (splineFinalKnot sq gc [B, C] T) = false := by
      show decide (C.x = B.x ∧ C.y = B.y) = false
      rw [decide_eq_false_iff_not]
      rintro ⟨h1, h2⟩
      exact hBC (by rw [h1, h2])
    rw [hb0, List.countP_cons, List.countP_nil, hfinal2]
    norm_num
  rw [pass1_two sq gc [A, B] [B, C] hne0, List.countP_append, hc1, hc2]

/-- Witness for the amended C4 theorem: interval 2/5 (knot density 80),
whose sampling loop never reaches `t = 1`, yields exactly one knot at the
boundary `(1, 0)`. -/
theorem pass1_boundary_knot_amended_witness :
    (pass1 sqStep ⟨80, 1⟩
        [[⟨0, 0, some 0⟩, ⟨1, 0, some 0⟩], [⟨1, 0, some 0⟩, ⟨2, 0, some 0⟩]] [] 0).countP
      (atCoord 1 0) = 1 :=
  pass1_boundary_knot_amended sqStep sqStep_sqrtLike ⟨80, 1⟩
    ⟨0, 0, some 0⟩ ⟨1, 0, some 0⟩ ⟨2, 0, some 0⟩
    (by intro h; have h1 := congrArg Prod.fst h; norm_num at h1)
    (by intro h; have h1 := congrArg Prod.fst h; norm_num at h1)
    (by norm_num [splineInterval, UnitConverter.fromAtoB])
    (by
      intro k h
      rw [show splineInterval ⟨80, 1⟩ = 2/5 from by
        norm_num [splineInterval, UnitConverter.fromAtoB]] at h
      have h2 : ((2 * k : ℕ) : ℚ) = 5 := by push_cast; linarith
      have h3 : (2 * k : ℕ) = 5 := by exact_mod_cast h2
      omega)

theorem pass1_one (sq : ℚ → ℚ) (gc : GeneralConfig) (s : List Vertex) :
    pass1 sq gc [s] [] 0 = Spline.calculateKnots sq gc s 0 := by
  simp only [pass1, List.nil_append, eq_self_iff_true, if_true, take_one_append_tail]

/-- `Path.calculateKnots` with the short-circuit for fewer than 2 pass-1
knots ruled out: the pass-2 resample, the first-knot heading override, and
the pinned terminal knot. -/
theorem path_calculateKnots_eq (sq : ℚ → ℚ) (gc : GeneralConfig) (sc : SpeedConfig)
    (splines : List (List Vertex)) (h : ¬(pass1 sq gc splines [] 0).length < 2) :
    Path.calculateKnots sq gc sc splines =
      setHeadHeading (((pass1 sq gc splines [] 0).getD 0 junkKnot).heading)
        (pass2 sc (pass1 sq gc splines [] 0)
          (((pass1 sq gc splines [] 0).getLastD junkKnot).integral)
          (strictTs (1 / ((((pass1 sq gc splines [] 0).getLastD junkKnot).integral) /
            gc.knotDensity))) 1) ++
      [⟨(Spline.last (splines.getLastD [])).x, (Spline.last (splines.getLastD [])).y,
        0, 0, 0, (Spline.last (splines.getLastD [])).heading⟩] := by
  simp only [Path.calculateKnots]
  rw [if_neg h]

theorem calculateKnots_length_ge_two (sq : ℚ → ℚ) (gc : GeneralConfig)
    (cs : List Vertex) (integral : ℚ) :
    2 ≤ (Spline.calculateKnots sq gc cs integral).length := by
  rw [Spline.calculateKnots, List.length_map, List.length_append]
  have hpos : 0 < (splineWithHeading sq gc cs integral).length :=
    List.length_pos.mpr (splineWithHeading_ne_nil sq gc cs integral)
  simp only [List.length_cons, List.length_nil]
  omega

theorem strictCount_succ (interval : ℚ) :
    strictCount interval = (strictCount interval - 1) + 1 := by
  unfold strictCount
  split
  · next h =>
      have hpos : (0 : ℚ) < 1 / interval := by positivity
      have h1 : (1 : ℤ) ≤ ⌈1 / interval⌉ := by
        rw [Int.le_ceil_iff]
        push_cast
        linarith
      omega
  · omega

theorem strictTs_eq_cons (interval : ℚ) :
    strictTs interval = 0 :: (List.range (strictCount interval - 1)).map
      (fun (j : ℕ) => ((j : ℚ) + 1) * interval) := by
  rw [strictTs, strictCount_succ interval, List.range_succ_eq_map, List.map_cons,
    List.map_map]
  norm_num [Function.comp, Nat.succ_eq_add_one]

theorem strictTs_mem_bounds {interval : ℚ} (hiv : 0 < interval) :
    ∀ t ∈ strictTs interval, 0 ≤ t ∧ t < 1 := by
  intro t ht
  rw [strictTs] at ht
  obtain ⟨k, hk, hkt⟩ := List.mem_map.mp ht
  rw [List.mem_range] at hk
  subst hkt
  constructor
  · exact mul_nonneg (Nat.cast_nonneg k) (le_of_lt hiv)
  · rw [strictCount, if_pos hiv] at hk
    have hk1 : (k : ℤ) < ⌈1 / interval⌉ := by
      rw [← Int.lt_toNat]
      exact_mod_cast hk
    have hk2 : (k : ℤ) + 1 ≤ ⌈1 / interval⌉ := hk1
    have hk3 : ((k : ℚ) + 1) ≤ (⌈1 / interval⌉ : ℚ) := by exact_mod_cast hk2
    have hceil : (⌈1 / interval⌉ : ℚ) < 1 / interval + 1 := Int.ceil_lt_add_one _
    have hklt : (k : ℚ) < 1 / interval := by linarith
    have := (mul_lt_mul_right hiv).mpr hklt
    rw [one_div, inv_mul_cancel₀ (ne_of_gt hiv)] at this
    exact this

theorem length_bezRun (sq : ℚ → ℚ) (cs : List Vertex) :
    ∀ (ts : List ℚ) (p : ℚ × ℚ) (tot : ℚ), (bezRun sq cs ts p tot).length = ts.length := by
  intro ts
  induction ts with
  | nil => intro p tot; rfl
  | cons t ts ih =>
      intro p tot
      simp only [bezRun, List.length_cons, ih]

theorem bezRun_integral_nonneg {sq : ℚ → ℚ} (hsq : SqrtLike sq) (cs : List Vertex) :
    ∀ (ts : List ℚ) (p : ℚ × ℚ) (tot : ℚ), 0 ≤ tot →
      ∀ k ∈ bezRun sq cs ts p tot, 0 ≤ k.integral := by
  intro ts
  induction ts with
  | nil => intro p tot _ k hk; exact absurd hk (by simp [bezRun])
  | cons t ts ih =>
      intro p tot htot k hk
      rw [bezRun] at hk
      have hd : 0 ≤ distQ sq (pointAt cs t).1 (pointAt cs t).2 p.1 p.2 := hsq.nonneg _
      rcases List.mem_cons.mp hk with rfl | hk2
      · show 0 ≤ tot + distQ sq (pointAt cs t).1 (pointAt cs t).2 p.1 p.2
        linarith
      · exact ih _ _ (by linarith) k hk2

theorem setHeadHeading_speed_mem {h : Option ℚ} {l : List Knot} {kn : Knot}
    (hk : kn ∈ setHeadHeading h l) : ∃ k ∈ l, kn.speed = k.speed := by
  cases l with
  | nil => exact absurd hk (by simp [setHeadHeading])
  | cons a as =>
      rcases List.mem_cons.mp hk with rfl | h2
      · exact ⟨a, List.mem_cons_self a as, rfl⟩
      · exact ⟨kn, List.mem_cons_of_mem a h2, rfl⟩

theorem setHead_pass2_head_heading (h : Option ℚ) (sc : SpeedConfig) (g : List Knot)
    (pathTTD t : ℚ) (ts : List ℚ) (idx : ℕ) (l2 : List Knot) (d : Knot) :
    ((setHeadHeading h (pass2 sc g pathTTD (t :: ts) idx) ++ l2).getD 0 d).heading =
      h := rfl

/-- The first pass-2 iteration at `t = 0`: the while loop does not move
(the knot at index 1 has nonnegative integral), the interpolation ratio is
`0`, and the produced knot sits at the head knot's coordinates. -/
theorem pass2_head_at_zero (sc : SpeedConfig) (khead : Knot) (ktail : List Knot)
    (T : ℚ) (ts' : List ℚ)
    (hkh : khead.integral = 0) (hkd : khead.delta = 0)
    (h2i : 0 ≤ (ktail.getD 0 junkKnot).integral) (htne : ktail ≠ []) :
    pass2 sc (khead :: ktail) T (0 :: ts') 1 =
      calculateSpeed sc T ⟨khead.x, khead.y, 0, 0, 0, none⟩ ::
        pass2 sc (khead :: ktail) T ts' 1 := by
  have h1 : 1 < (khead :: ktail).length := by
    rw [List.length_cons]
    have := List.length_pos.mpr htne
    omega
  have hadv : advanceIdx (khead :: ktail) 1 (0 * T) none = (1, none) := by
    rw [advanceIdx, dif_pos h1]
    have hget : ((khead :: ktail).get ⟨1, h1⟩).integral =
        (ktail.getD 0 junkKnot).integral := by
      cases ktail with
      | nil => exact absurd rfl htne
      | cons a as => rfl
    have hnot : ¬ ((khead :: ktail).get ⟨1, h1⟩).integral < 0 * T := by
      rw [hget, zero_mul]
      exact not_lt.mpr h2i
    rw [if_neg hnot]
  simp only [pass2]
  rw [hadv]
  norm_num [hkh, hkd, List.getD_cons_zero]

/-- C5: with knot density 400 (sampling interval 2 > 1) a one-segment path
produces a single resampled knot, so the heading assignment inside
`Spline.calculateKnots` is skipped and the first knot of the final
sequence has no heading at all, although the first control point's heading
is 90. -/
theorem path_endpoint_knots_counterexample :
    ((Path.calculateKnots sqStep ⟨400, 1⟩ ⟨⟨1, 2⟩, ⟨0, 3⟩, ⟨1/4, 3/4⟩⟩
        [[⟨0, 0, some 90⟩, ⟨1, 0, some 0⟩]]).getD 0 junkKnot).heading = none ∧
    (Spline.first [(⟨0, 0, some 90⟩ : Vertex), ⟨1, 0, some 0⟩]).heading = some 90 := by
  refine ⟨?_, rfl⟩
  have hct : sampleCount (splineInterval ⟨400, 1⟩) = 1 := by
    norm_num [sampleCount, splineInterval, UnitConverter.fromAtoB, Int.toNat]
  have hts : sampleTs (splineInterval ⟨400, 1⟩) = [0] := by
    rw [sampleTs, hct, show List.range 1 = [0] from rfl]
    norm_num
  have hbez : splineBez sqStep ⟨400, 1⟩ [⟨0, 0, some 90⟩, ⟨1, 0, some 0⟩] 0 =
      [⟨0, 0, 0, 0, 0, none⟩] := by
    rw [splineBez, hts]
    norm_num [bezRun, pointAt_pair, distQ, sqStep, Spline.first]
  have hwh : splineWithHeading sqStep ⟨400, 1⟩ [⟨0, 0, some 90⟩, ⟨1, 0, some 0⟩] 0 =
      [⟨0, 0, 0, 0, 0, none⟩] := by
    rw [splineWithHeading, hbez]
    norm_num
  have hh0 : ((Spline.calculateKnots sqStep ⟨400, 1⟩
      [⟨0, 0, some 90⟩, ⟨1, 0, some 0⟩] 0).getD 0 junkKnot).heading = none := by
    rw [Spline.calculateKnots, hwh]
    rfl
  have hlen : ¬ (pass1 sqStep ⟨400, 1⟩ [[⟨0, 0, some 90⟩, ⟨1, 0, some 0⟩]] [] 0).length
      < 2 := by
    rw [pass1_one]
    have := calculateKnots_length_ge_two sqStep ⟨400, 1⟩
      [⟨0, 0, some 90⟩, ⟨1, 0, some 0⟩] 0
    omega
  rw [path_calculateKnots_eq _ _ _ _ hlen, pass1_one, strictTs_eq_cons,
    setHead_pass2_head_heading]
  exact hh0

/-- Pass 1 only ever appends to its accumulator. -/
theorem pass1_suffix (sq : ℚ → ℚ) (gc : GeneralConfig) :
    ∀ (rest : List (List Vertex)) (gen1 : List Knot) (ttd : ℚ),
      ∃ suf : List Knot, pass1 sq gc rest gen1 ttd = gen1 ++ suf := by
  intro rest
  induction rest with
  | nil =>
      intro gen1 ttd
      exact ⟨[], by rw [pass1, List.append_nil]⟩
  | cons cs rest ih =>
      intro gen1 ttd
      simp only [pass1]
      obtain ⟨suf2, hsuf⟩ := ih
        ((if ttd = 0 then gen1 ++ (Spline.calculateKnots sq gc cs ttd).take 1 else gen1) ++
          (Spline.calculateKnots sq gc cs ttd).tail)
        ((((if ttd = 0 then gen1 ++ (Spline.calculateKnots sq gc cs ttd).take 1 else gen1) ++
          (Spline.calculateKnots sq gc cs ttd).tail).getLastD junkKnot).integral)
      rw [hsuf]
      by_cases h : ttd = 0
      · rw [if_pos h]
        exact ⟨(Spline.calculateKnots sq gc cs ttd).take 1 ++
          ((Spline.calculateKnots sq gc cs ttd).tail ++ suf2), by
            simp [List.append_assoc]⟩
      · rw [if_neg h]
        exact ⟨(Spline.calculateKnots sq gc cs ttd).tail ++ suf2, by
          simp [List.append_assoc]⟩

/-- C5 (amended): for every nonempty path whose sampling interval lies in
`(0, 1]` (so the first spline's resample emits at least two knots and the
first knot gets the first control's heading) and whose second pass-1 knot
has nonzero integral (ruling out the JS `0/0 = NaN` in the first
interpolation, which the rational embedding would silently read as `0`),
the first knot of the final sequence is the speed-shaped knot at the
path's first control point's coordinates with that control's heading, and
the last knot is exactly the path's last end control point with delta,
integral and speed all 0. -/
theorem path_endpoint_knots_amended (sq : ℚ → ℚ) (hsq : SqrtLike sq)
    (gc : GeneralConfig) (sc : SpeedConfig) (cs : List Vertex)
    (rest : List (List Vertex)) (hcs : cs ≠ [])
    (hiv : 0 < splineInterval gc) (hiv1 : splineInterval gc ≤ 1)
    (h2nz : ((Spline.calculateKnots sq gc cs 0).getD 1 junkKnot).integral ≠ 0) :
    (Path.calculateKnots sq gc sc (cs :: rest)).getD 0 junkKnot =
      { calculateSpeed sc
          (((pass1 sq gc (cs :: rest) [] 0).getLastD junkKnot).integral)
          ⟨(Spline.first cs).x, (Spline.first cs).y, 0, 0, 0, none⟩ with
        heading := (Spline.first cs).heading } ∧
    (Path.calculateKnots sq gc sc (cs :: rest)).getLastD junkKnot =
      ⟨(Spline.last ((cs :: rest).getLastD [])).x,
        (Spline.last ((cs :: rest).getLastD [])).y, 0, 0, 0,
        (Spline.last ((cs :: rest).getLastD [])).heading⟩ := by
  have hcnt2 : 2 ≤ sampleCount (splineInterval gc) := by
    rw [sampleCount, if_pos hiv]
    have h1 : (1 : ℤ) ≤ ⌊1 / splineInterval gc⌋ := by
      rw [Int.le_floor]
      push_cast
      rw [le_div_iff₀ hiv]
      linarith
    omega
  have hd0 : distQ sq (Spline.first cs).x (Spline.first cs).y
      (Spline.first cs).x (Spline.first cs).y = 0 := by
    rw [distQ, show ((Spline.first cs).x - (Spline.first cs).x) ^ 2 +
      ((Spline.first cs).y - (Spline.first cs).y) ^ 2 = (0 : ℚ) from by ring, hsq.zero]
  have hbezc : splineBez sq gc cs 0 =
      ⟨(Spline.first cs).x, (Spline.first cs).y, 0, 0, 0, none⟩ ::
        bezRun sq cs ((List.range (sampleCount (splineInterval gc) - 1)).map
            (fun (j : ℕ) => ((j : ℚ) + 1) * splineInterval gc))
          ((Spline.first cs).x, (Spline.first cs).y) 0 := by
    rw [splineBez, sampleTs_eq_cons, bezRun_cons, pointAt_zero cs hcs]
    norm_num [hd0]
  have hlen1 : 1 < (splineBez sq gc cs 0).length := by
    rw [hbezc, List.length_cons, length_bezRun, List.length_map, List.length_range]
    omega
  have hwhc : splineWithHeading sq gc cs 0 =
      ⟨(Spline.first cs).x, (Spline.first cs).y, 0, 0, 0, (Spline.first cs).heading⟩ ::
        bezRun sq cs ((List.range (sampleCount (splineInterval gc) - 1)).map
            (fun (j : ℕ) => ((j : ℚ) + 1) * splineInterval gc))
          ((Spline.first cs).x, (Spline.first cs).y) 0 := by
    rw [splineWithHeading, if_pos hlen1, hbezc]
    rfl
  have hksc : Spline.calculateKnots sq gc cs 0 =
      ⟨(Spline.first cs).x, (Spline.first cs).y, 0, 0, 0, (Spline.first cs).heading⟩ ::
        (bezRun sq cs ((List.range (sampleCount (splineInterval gc) - 1)).map
              (fun (j : ℕ) => ((j : ℚ) + 1) * splineInterval gc))
            ((Spline.first cs).x, (Spline.first cs).y) 0 ++
          [splineFinalKnot sq gc cs 0]).map
          (fun k => { k with delta := k.delta * splineDeltaRatio sq gc cs 0 }) := by
    rw [Spline.calculateKnots, hwhc, List.cons_append, List.map_cons]
    norm_num
  have hbne : bezRun sq cs ((List.range (sampleCount (splineInterval gc) - 1)).map
      (fun (j : ℕ) => ((j : ℚ) + 1) * splineInterval gc))
      ((Spline.first cs).x, (Spline.first cs).y) 0 ≠ [] := by
    intro h
    have hl := length_bezRun sq cs ((List.range (sampleCount (splineInterval gc) - 1)).map
      (fun (j : ℕ) => ((j : ℚ) + 1) * splineInterval gc))
      ((Spline.first cs).x, (Spline.first cs).y) 0
    rw [h, List.length_nil, List.length_map, List.length_range] at hl
    omega
  have htne : (bezRun sq cs ((List.range (sampleCount (splineInterval gc) - 1)).map
        (fun (j : ℕ) => ((j : ℚ) + 1) * splineInterval gc))
        ((Spline.first cs).x, (Spline.first cs).y) 0 ++
      [splineFinalKnot sq gc cs 0]).map
      (fun k => { k with delta := k.delta * splineDeltaRatio sq gc cs 0 }) ≠ [] := by
    intro h
    have := congrArg List.length h
    rw [List.length_map, List.length_append, List.length_nil] at this
    simp only [List.length_cons, List.length_nil] at this
    omega
  have h2i : 0 ≤ (((bezRun sq cs ((List.range (sampleCount (splineInterval gc) - 1)).map
        (fun (j : ℕ) => ((j : ℚ) + 1) * splineInterval gc))
        ((Spline.first cs).x, (Spline.first cs).y) 0 ++
      [splineFinalKnot sq gc cs 0]).map
      (fun k => { k with delta := k.delta * splineDeltaRatio sq gc cs 0 })).getD 0
        junkKnot).integral := by
    cases hb : bezRun sq cs ((List.range (sampleCount (splineInterval gc) - 1)).map
        (fun (j : ℕ) => ((j : ℚ) + 1) * splineInterval gc))
        ((Spline.first cs).x, (Spline.first cs).y) 0 with
    | nil => exact absurd hb hbne
    | cons b0 bs =>
        rw [List.cons_append, List.map_cons, List.getD_cons_zero]
        show 0 ≤ b0.integral
        refine bezRun_integral_nonneg hsq cs
          ((List.range (sampleCount (splineInterval gc) - 1)).map
            (fun (j : ℕ) => ((j : ℚ) + 1) * splineInterval gc))
          ((Spline.first cs).x, (Spline.first cs).y) 0 le_rfl b0 ?_
        rw [hb]
        exact List.mem_cons_self b0 bs
  have hfirst : pass1 sq gc (cs :: rest) [] 0 =
      pass1 sq gc rest (Spline.calculateKnots sq gc cs 0)
        (((Spline.calculateKnots sq gc cs 0).getLastD junkKnot).integral) := by
    simp only [pass1, List.nil_append, eq_self_iff_true, if_true, take_one_append_tail]
  obtain ⟨suf, hsuf⟩ := pass1_suffix sq gc rest (Spline.calculateKnots sq gc cs 0)
    (((Spline.calculateKnots sq gc cs 0).getLastD junkKnot).integral)
  have hgenfull : pass1 sq gc (cs :: rest) [] 0 =
      Spline.calculateKnots sq gc cs 0 ++ suf := hfirst.trans hsuf
  have hgen1 : pass1 sq gc (cs :: rest) [] 0 =
      ⟨(Spline.first cs).x, (Spline.first cs).y, 0, 0, 0, (Spline.first cs).heading⟩ ::
        ((bezRun sq cs ((List.range (sampleCount (splineInterval gc) - 1)).map
              (fun (j : ℕ) => ((j : ℚ) + 1) * splineInterval gc))
            ((Spline.first cs).x, (Spline.first cs).y) 0 ++
          [splineFinalKnot sq gc cs 0]).map
          (fun k => { k with delta := k.delta * splineDeltaRatio sq gc cs 0 }) ++ suf) := by
    rw [hgenfull, hksc, List.cons_append]
  have hlen : ¬ (pass1 sq gc (cs :: rest) [] 0).length < 2 := by
    rw [hgenfull, List.length_append]
    have := calculateKnots_length_ge_two sq gc cs 0
    omega
  have htlenpos : 0 < ((bezRun sq cs
      ((List.range (sampleCount (splineInterval gc) - 1)).map
        (fun (j : ℕ) => ((j : ℚ) + 1) * splineInterval gc))
      ((Spline.first cs).x, (Spline.first cs).y) 0 ++
      [splineFinalKnot sq gc cs 0]).map
      (fun k => { k with delta := k.delta * splineDeltaRatio sq gc cs 0 })).length :=
    List.length_pos.mpr htne
  have htne2 : (bezRun sq cs ((List.range (sampleCount (splineInterval gc) - 1)).map
        (fun (j : ℕ) => ((j : ℚ) + 1) * splineInterval gc))
        ((Spline.first cs).x, (Spline.first cs).y) 0 ++
      [splineFinalKnot sq gc cs 0]).map
      (fun k => { k with delta := k.delta * splineDeltaRatio sq gc cs 0 }) ++ suf ≠ [] := by
    intro h
    rw [List.append_eq_nil] at h
    exact htne h.1
  have h2i2 : 0 ≤ (List.getD
      ((bezRun sq cs ((List.range (sampleCount (splineInterval gc) - 1)).map
          (fun (j : ℕ) => ((j : ℚ) + 1) * splineInterval gc))
          ((Spline.first cs).x, (Spline.first cs).y) 0 ++
        [splineFinalKnot sq gc cs 0]).map
        (fun k => { k with delta := k.delta * splineDeltaRatio sq gc cs 0 }) ++ suf)
      0 junkKnot).integral := by
    rw [List.getD_append _ suf junkKnot 0 htlenpos]
    exact h2i
  have haux := fun (T : ℚ) (ts' : List ℚ) => pass2_head_at_zero sc
    ⟨(Spline.first cs).x, (Spline.first cs).y, 0, 0, 0, (Spline.first cs).heading⟩
    ((bezRun sq cs ((List.range (sampleCount (splineInterval gc) - 1)).map
          (fun (j : ℕ) => ((j : ℚ) + 1) * splineInterval gc))
        ((Spline.first cs).x, (Spline.first cs).y) 0 ++
      [splineFinalKnot sq gc cs 0]).map
      (fun k => { k with delta := k.delta * splineDeltaRatio sq gc cs 0 }) ++ suf)
    T ts' rfl rfl (by exact h2i2) htne2
  constructor
  · rw [path_calculateKnots_eq _ _ _ _ hlen, hgen1, strictTs_eq_cons, haux]
    rfl
  · rw [path_calculateKnots_eq _ _ _ _ hlen, getLastD_concat]

/-- Concrete run of `Spline.calculateKnots` at unit sampling interval
(knot density 200), used to discharge hypotheses of claim witnesses. -/
theorem ksDemoEval : Spline.calculateKnots sqStep ⟨200, 1⟩
    [⟨0, 0, some 90⟩, ⟨1, 0, some 0⟩] 0 =
    [⟨0, 0, 0, 0, 0, some 90⟩, ⟨1, 0, 200, 1, 0, none⟩, ⟨1, 0, 0, 1, 0, some 0⟩] := by
  have hct : sampleCount (splineInterval ⟨200, 1⟩) = 2 := by
    norm_num [sampleCount, splineInterval, UnitConverter.fromAtoB, Int.toNat]
  have hts : sampleTs (splineInterval ⟨200, 1⟩) = [0, 1] := by
    rw [sampleTs, hct, show List.range 2 = [0, 1] from rfl]
    norm_num [splineInterval, UnitConverter.fromAtoB]
  have hbez : splineBez sqStep ⟨200, 1⟩ [⟨0, 0, some 90⟩, ⟨1, 0, some 0⟩] 0 =
      [⟨0, 0, 0, 0, 0, none⟩, ⟨1, 0, 1, 1, 0, none⟩] := by
    rw [splineBez, hts]
    norm_num [bezRun, pointAt_pair, distQ, sqStep, Spline.first]
  have hwh : splineWithHeading sqStep ⟨200, 1⟩ [⟨0, 0, some 90⟩, ⟨1, 0, some 0⟩] 0 =
      [⟨0, 0, 0, 0, 0, some 90⟩, ⟨1, 0, 1, 1, 0, none⟩] := by
    rw [splineWithHeading, hbez]
    norm_num [setHeadHeading, Spline.first]
  have hlk : splineLastKnot sqStep ⟨200, 1⟩ [⟨0, 0, some 90⟩, ⟨1, 0, some 0⟩] 0 =
      ⟨1, 0, 1, 1, 0, none⟩ := by
    rw [splineLastKnot, hwh]
    rfl
  have hfd : splineFinalDist sqStep ⟨200, 1⟩ [⟨0, 0, some 90⟩, ⟨1, 0, some 0⟩] 0 = 0 := by
    rw [splineFinalDist, hlk]
    norm_num [distQ, sqStep, Spline.last]
  have hid : splineIntegralDistance sqStep ⟨200, 1⟩
      [⟨0, 0, some 90⟩, ⟨1, 0, some 0⟩] 0 = 1 := by
    rw [splineIntegralDistance, hlk, hfd]
    norm_num
  have hratio : splineDeltaRatio sqStep ⟨200, 1⟩
      [⟨0, 0, some 90⟩, ⟨1, 0, some 0⟩] 0 = 200 := by
    rw [splineDeltaRatio, hid]
    norm_num [splineInterval, UnitConverter.fromAtoB]
  have hfk : splineFinalKnot sqStep ⟨200, 1⟩ [⟨0, 0, some 90⟩, ⟨1, 0, some 0⟩] 0 =
      ⟨1, 0, 0, 1, 0, some 0⟩ := by
    rw [splineFinalKnot, hfd, hid]
    rfl
  rw [Spline.calculateKnots, hwh, hfk, hratio]
  norm_num

/-- Witness for the amended C5 theorem: unit interval, two line segments
`(0,0)→(1,0)→(2,0)` — the terminal knot is exactly the path's last control
point with speed 0. -/
theorem path_endpoint_knots_amended_witness :
    (Path.calculateKnots sqStep ⟨200, 1⟩ ⟨⟨1, 2⟩, ⟨0, 3⟩, ⟨1/4, 3/4⟩⟩
        [[⟨0, 0, some 90⟩, ⟨1, 0, some 0⟩],
         [⟨1, 0, some 0⟩, ⟨2, 0, some 0⟩]]).getLastD junkKnot =
      ⟨2, 0, 0, 0, 0, some 0⟩ :=
  (path_endpoint_knots_amended sqStep sqStep_sqrtLike ⟨200, 1⟩
    ⟨⟨1, 2⟩, ⟨0, 3⟩, ⟨1/4, 3/4⟩⟩ [⟨0, 0, some 90⟩, ⟨1, 0, some 0⟩]
    [[⟨1, 0, some 0⟩, ⟨2, 0, some 0⟩]] (by simp)
    (by norm_num [splineInterval, UnitConverter.fromAtoB])
    (by norm_num [splineInterval, UnitConverter.fromAtoB])
    (by rw [ksDemoEval]; norm_num)).2

/-- Bounds for the application-range stage of `calculateSpeed`. -/
theorem s1_bounds (fromV toV aF aT d : ℚ) (hsl : fromV ≤ toV) (happ : aF ≤ aT) :
    fromV ≤ (if d < aF ∧ d ≠ 0 then fromV
      else if aT < d then toV
      else if (toV - fromV ≠ 0 ∧ aT - aF ≠ 0) ∧ d ≠ 0 then
        fromV + (d - aF) * ((toV - fromV) / (aT - aF))
      else toV) ∧
    (if d < aF ∧ d ≠ 0 then fromV
      else if aT < d then toV
      else if (toV - fromV ≠ 0 ∧ aT - aF ≠ 0) ∧ d ≠ 0 then
        fromV + (d - aF) * ((toV - fromV) / (aT - aF))
      else toV) ≤ toV := by
  split_ifs with h1 h2 h3
  · exact ⟨le_refl _, hsl⟩
  · exact ⟨hsl, le_refl _⟩
  · obtain ⟨⟨hd, haD⟩, hne⟩ := h3
    have haF : aF ≤ d := by
      by_contra hc
      exact h1 ⟨not_le.mp hc, hne⟩
    have haT : d ≤ aT := not_lt.mp h2
    have haD' : 0 < aT - aF := lt_of_le_of_ne (by linarith) (Ne.symm haD)
    have hq : 0 ≤ (toV - fromV) / (aT - aF) := div_nonneg (by linarith) haD'.le
    constructor
    · nlinarith [mul_nonneg (by linarith : (0 : ℚ) ≤ d - aF) hq]
    · have hle : (d - aF) * ((toV - fromV) / (aT - aF)) ≤
          (aT - aF) * ((toV - fromV) / (aT - aF)) :=
        mul_le_mul_of_nonneg_right (by linarith) hq
      have hcan : (aT - aF) * ((toV - fromV) / (aT - aF)) = toV - fromV := by
        field_simp
      linarith
  · exact ⟨hsl, le_refl _⟩

/-- Bounds for the acceleration/deceleration stage of `calculateSpeed`: the
`min` with a ramp value that is at least `fromV` whenever the ramp's guard
holds (the guard forces the transition boundary to the sign that makes the
scale nonnegative). -/
theorem s2_bounds (fromV toV trF trT ttd t s1 : ℚ) (hsl : fromV ≤ toV)
    (hs1 : fromV ≤ s1 ∧ s1 ≤ toV) (httd : 0 < ttd) (ht0 : 0 ≤ t) (ht1 : t < 1) :
    fromV ≤ (if t * ttd < trF * ttd then
        min s1 (fromV + t * ttd / ttd * ((toV - fromV) / trF))
      else if trT * ttd < t * ttd then
        min s1 (fromV + (1 - t * ttd / ttd) * ((toV - fromV) / (1 - trT)))
      else s1) ∧
    (if t * ttd < trF * ttd then
        min s1 (fromV + t * ttd / ttd * ((toV - fromV) / trF))
      else if trT * ttd < t * ttd then
        min s1 (fromV + (1 - t * ttd / ttd) * ((toV - fromV) / (1 - trT)))
      else s1) ≤ toV := by
  have hcan : t * ttd / ttd = t := mul_div_cancel_right₀ t (ne_of_gt httd)
  split_ifs with h4 h5
  · have htF : t < trF := lt_of_mul_lt_mul_right h4 httd.le
    have htFpos : 0 < trF := lt_of_le_of_lt ht0 htF
    have hX : 0 ≤ t * ttd / ttd * ((toV - fromV) / trF) := by
      rw [hcan]
      exact mul_nonneg ht0 (div_nonneg (by linarith) htFpos.le)
    exact ⟨le_min hs1.1 (by linarith), le_trans (min_le_left _ _) hs1.2⟩
  · have htT : trT < t := lt_of_mul_lt_mul_right h5 httd.le
    have hY : 0 ≤ (1 - t * ttd / ttd) * ((toV - fromV) / (1 - trT)) := by
      rw [hcan]
      exact mul_nonneg (by linarith) (div_nonneg (by linarith) (by linarith))
    exact ⟨le_min hs1.1 (by linarith), le_trans (min_le_left _ _) hs1.2⟩
  · exact hs1

theorem calculateSpeed_speed_mem (sc : SpeedConfig) (pathTTD : ℚ) (p3 : Knot) (t : ℚ)
    (hsl : sc.speedLimit.fromV ≤ sc.speedLimit.toV)
    (happ : sc.applicationRange.fromV ≤ sc.applicationRange.toV)
    (httd : 0 < pathTTD) (hpi : p3.integral = t * pathTTD)
    (ht0 : 0 ≤ t) (ht1 : t < 1) :
    sc.speedLimit.fromV ≤ (calculateSpeed sc pathTTD p3).speed ∧
      (calculateSpeed sc pathTTD p3).speed ≤ sc.speedLimit.toV := by
  simp only [calculateSpeed]
  rw [hpi]
  exact s2_bounds sc.speedLimit.fromV sc.speedLimit.toV sc.transitionRange.fromV
    sc.transitionRange.toV pathTTD t _ hsl
    (s1_bounds sc.speedLimit.fromV sc.speedLimit.toV sc.applicationRange.fromV
      sc.applicationRange.toV p3.delta hsl happ) httd ht0 ht1

theorem pass2_speed_mem (sc : SpeedConfig) (g : List Knot) (pathTTD : ℚ)
    (hsl : sc.speedLimit.fromV ≤ sc.speedLimit.toV)
    (happ : sc.applicationRange.fromV ≤ sc.applicationRange.toV)
    (httd : 0 < pathTTD) :
    ∀ (ts : List ℚ) (idx : ℕ), (∀ t ∈ ts, 0 ≤ t ∧ t < 1) →
      ∀ kn ∈ pass2 sc g pathTTD ts idx,
        sc.speedLimit.fromV ≤ kn.speed ∧ kn.speed ≤ sc.speedLimit.toV := by
  intro ts
  induction ts with
  | nil => intro idx _ kn hkn; exact absurd hkn (by simp [pass2])
  | cons t ts ih =>
      intro idx hts kn hkn
      simp only [pass2] at hkn
      rcases List.mem_cons.mp hkn with rfl | h2
      · have hb := hts t (List.mem_cons_self t ts)
        exact calculateSpeed_speed_mem sc pathTTD _ t hsl happ httd rfl hb.1 hb.2
      · exact ih _ (fun u hu => hts u (List.mem_cons_of_mem t hu)) kn h2

/-- C6: the terminal knot appended by `Path.calculateKnots` carries the
hard-coded speed 0, which violates the claimed lower speed bound whenever
`speedLimit.from` is positive (here `speedLimit.from = 1`). -/
theorem path_speed_bounds_counterexample :
    ((Path.calculateKnots sqStep ⟨200, 1⟩ ⟨⟨1, 2⟩, ⟨0, 3⟩, ⟨1/4, 3/4⟩⟩
        [[⟨0, 0, some 90⟩, ⟨1, 0, some 0⟩]]).getLastD junkKnot).speed = 0 ∧
    ¬ ((⟨⟨1, 2⟩, ⟨0, 3⟩, ⟨1/4, 3/4⟩⟩ : SpeedConfig).speedLimit.fromV ≤
        ((Path.calculateKnots sqStep ⟨200, 1⟩ ⟨⟨1, 2⟩, ⟨0, 3⟩, ⟨1/4, 3/4⟩⟩
          [[⟨0, 0, some 90⟩, ⟨1, 0, some 0⟩]]).getLastD junkKnot).speed) := by
  have hlen : ¬ (pass1 sqStep ⟨200, 1⟩
      [[⟨0, 0, some 90⟩, ⟨1, 0, some 0⟩]] [] 0).length < 2 := by
    rw [pass1_one]
    have := calculateKnots_length_ge_two sqStep ⟨200, 1⟩
      [⟨0, 0, some 90⟩, ⟨1, 0, some 0⟩] 0
    omega
  have hspeed : ((Path.calculateKnots sqStep ⟨200, 1⟩ ⟨⟨1, 2⟩, ⟨0, 3⟩, ⟨1/4, 3/4⟩⟩
      [[⟨0, 0, some 90⟩, ⟨1, 0, some 0⟩]]).getLastD junkKnot).speed = 0 := by
    rw [path_calculateKnots_eq _ _ _ _ hlen, getLastD_concat]
  refine ⟨hspeed, ?_⟩
  rw [hspeed]
  norm_num

/-- C6 (amended): provided `speedLimit.from ≤ speedLimit.to`,
`applicationRange.from ≤ applicationRange.to`, a positive knot density and
a positive total travel distance, every knot produced by the pass-2 loop
(everything except the appended terminal knot) has speed inside
`[speedLimit.from, speedLimit.to]` — the ramp guards make the divisions by
a zero transition boundary unreachable — while the terminal knot's speed
is hard-coded to 0. -/
theorem path_speed_bounds_amended (sq : ℚ → ℚ) (gc : GeneralConfig) (sc : SpeedConfig)
    (splines : List (List Vertex))
    (hsl : sc.speedLimit.fromV ≤ sc.speedLimit.toV)
    (happ : sc.applicationRange.fromV ≤ sc.applicationRange.toV)
    (hkd : 0 < gc.knotDensity)
    (hlen : ¬(pass1 sq gc splines [] 0).length < 2)
    (httd : 0 < ((pass1 sq gc splines [] 0).getLastD junkKnot).integral) :
    (∀ kn ∈ (Path.calculateKnots sq gc sc splines).dropLast,
      sc.speedLimit.fromV ≤ kn.speed ∧ kn.speed ≤ sc.speedLimit.toV) ∧
    ((Path.calculateKnots sq gc sc splines).getLastD junkKnot).speed = 0 := by
  rw [path_calculateKnots_eq _ _ _ _ hlen]
  constructor
  · rw [List.dropLast_concat]
    intro kn hkn
    obtain ⟨k2, hk2mem, hk2⟩ := setHeadHeading_speed_mem hkn
    rw [hk2]
    have hTi : 0 < 1 / ((((pass1 sq gc splines [] 0).getLastD junkKnot).integral) /
        gc.knotDensity) := div_pos one_pos (div_pos httd hkd)
    exact pass2_speed_mem sc _ _ hsl happ httd _ 1 (strictTs_mem_bounds hTi) k2 hk2mem
  · rw [getLastD_concat]

/-- Witness for the amended C6 theorem at a concrete one-segment path with
speed limit `[1, 2]`: the terminal knot's speed is 0. -/
theorem path_speed_bounds_amended_witness :
    ((Path.calculateKnots sqStep ⟨200, 1⟩ ⟨⟨1, 2⟩, ⟨1/10, 3⟩, ⟨1/4, 3/4⟩⟩
        [[⟨0, 0, some 90⟩, ⟨1, 0, some 0⟩]]).getLastD junkKnot).speed = 0 :=
  (path_speed_bounds_amended sqStep ⟨200, 1⟩ ⟨⟨1, 2⟩, ⟨1/10, 3⟩, ⟨1/4, 3/4⟩⟩
    [[⟨0, 0, some 90⟩, ⟨1, 0, some 0⟩]] (by norm_num) (by norm_num) (by norm_num)
    (by
      rw [pass1_one]
      have := calculateKnots_length_ge_two sqStep ⟨200, 1⟩
        [⟨0, 0, some 90⟩, ⟨1, 0, some 0⟩] 0
      omega)
    (by
      rw [pass1_one, ksDemoEval]
      norm_num [List.getLastD_cons, List.getLastD_nil, junkKnot])).2

end PathCore
